import Mathlib

/-!
Asset ledger chaincode (`chaincode/smartcontract.go`).

A shallow embedding of the smart contract and of the part of the ledger stub it
calls, followed by theorems about its operations.

* Go strings are Lean strings, that is Go strings that are valid UTF-8; the section
  "Go strings as byte strings" embeds `InitLedger` and `ReadAsset` over arbitrary
  bytes, with the coercion to valid UTF-8 that `json.Marshal` applies. `uint64` is
  `Nat` below `2 ^ 64` with the subtraction of `TransferAsset` taken modulo `2 ^ 64`.
* A `[]byte` value is a `String` holding the JSON text; the `nil` slice returned by
  `GetState` for an absent key is `none`.
* The ledger stub is a state: the current world state as a list of key/value
  pairs in ascending key order, together with the log of every write. Every stub
  call may fail; which calls fail is described by a `Faults` value.
* `encoding/json` is a library: the contract is written against a `Codec`, any
  pair of functions in which decoding undoes encoding; `jsonCodec` is such a pair
  producing the JSON object of an asset.
* The history of a key is read off the log of writes: `GetHistoryForKey` is a call
  of the ledger platform and is modelled from the interface the spec asks of it.
  `ReadHistory` takes that call as an argument, so that its theorems hold for
  every cursor a stub can answer.
* An operation returns its Go result together with the stub state it leaves, and
  `GetAllAssets` and `ReadHistory` also the cursor as they leave it.
-/

namespace Chaincode

/-! ## Data model -/

/-- Go `type Asset struct`, fields in declaration order. -/
structure Asset where
  ID : String
  Name : String
  Count : Nat
  OwnerId : String
  deriving DecidableEq

/-- The errors the contract returns, one constructor per place that creates or
forwards one. -/
inductive Error where
  /-- An error of the stub or of a cursor, returned as it is. -/
  | stub (msg : String)
  /-- Built by `fmt.Errorf("failed to read from world state: %v", err)`. -/
  | readFailed (msg : String)
  /-- Built by `fmt.Errorf("failed to put to world state. %v", err)`. -/
  | putFailed (msg : String)
  /-- Built by `fmt.Errorf("the asset %s does not exist", id)`. -/
  | notExist (id : String)
  /-- An error of `json.Marshal` or `json.Unmarshal`, returned as it is. -/
  | json (msg : String)
  /-- Built by `fmt.Errorf("Stock does not have enough count!")`. -/
  | notEnough
  /-- Built by `fmt.Errorf("the history %s does not exist")`, which has no argument. -/
  | noHistory
  deriving DecidableEq

/-- The text of an error, as `Error()` gives it. -/
def Error.message : Error → String
  | .stub msg => msg
  | .readFailed msg => "failed to read from world state: " ++ msg
  | .putFailed msg => "failed to put to world state. " ++ msg
  | .notExist id => "the asset " ++ id ++ " does not exist"
  | .json msg => msg
  | .notEnough => "Stock does not have enough count!"
  | .noHistory => "the history %!s(MISSING) does not exist"

/-- The size of the `uint64` range. -/
def uint64Size : Nat := 2 ^ 64

/-- Go `a - b` on `uint64` operands: subtraction modulo `2 ^ 64`. -/
def subUint64 (a b : Nat) : Nat := (a + uint64Size - b % uint64Size) % uint64Size

/-- The two `encoding/json` functions the contract calls, at the type `Asset`. -/
structure Codec where
  Marshal : Asset → Except String String
  Unmarshal : String → Except String Asset

/-- What the contract relies on from `encoding/json`: marshalling an asset whose
count is in the `uint64` range succeeds and unmarshalling the output gives the
asset back, and an unmarshalled count is in the `uint64` range. -/
def Codec.Lawful (c : Codec) : Prop :=
  (∀ a : Asset, a.Count < uint64Size → ∃ b, c.Marshal a = .ok b ∧ c.Unmarshal b = .ok a) ∧
  (∀ (b : String) (a : Asset), c.Unmarshal b = .ok a → a.Count < uint64Size)

/-! ### A JSON codec -/

/-- The body of a JSON string: quotation mark and reverse solidus escaped. -/
def escape : List Char → List Char
  | [] => []
  | ch :: rest =>
    if ch = '"' then '\\' :: '"' :: escape rest
    else if ch = '\\' then '\\' :: '\\' :: escape rest
    else ch :: escape rest

/-- A JSON string literal. -/
def quote (str : String) : List Char := '"' :: (escape str.data ++ ['"'])

/-- The decimal digit `d` as a character. -/
def digitChar (d : Nat) : Char := Char.ofNat (48 + d)

/-- The decimal digits of `n` in front of `acc`, at most `fuel` of them. -/
def digitsAux : Nat → Nat → List Char → List Char
  | 0, _, acc => acc
  | fuel + 1, n, acc =>
    if n / 10 = 0 then digitChar (n % 10) :: acc
    else digitsAux fuel (n / 10) (digitChar (n % 10) :: acc)

/-- A JSON number: the decimal digits of `n`. -/
def encodeNat (n : Nat) : List Char := digitsAux (n + 1) n []

/-- The JSON object of an asset, members in field order under their `json:` names. -/
def encodeAsset (a : Asset) : List Char :=
  "\x7b\"ID\":".data ++ quote a.ID ++ ",\"name\":".data ++ quote a.Name ++
    ",\"count\":".data ++ encodeNat a.Count ++ ",\"ownerId\":".data ++ quote a.OwnerId ++
    "\x7d".data

/-- Read the given characters off the front of the input. -/
def expect : List Char → List Char → Option (List Char)
  | [], inp => some inp
  | _ :: _, [] => none
  | p :: ps, ch :: inp => if p = ch then expect ps inp else none

/-- Read the body of a JSON string up to its closing quotation mark: the string
and the input after the mark. -/
def parseString : List Char → Option (List Char × List Char)
  | [] => none
  | ch :: rest =>
    if ch = '"' then some ([], rest)
    else if ch = '\\' then
      match rest with
      | [] => none
      | e :: rest2 =>
        if e = '"' ∨ e = '\\' then (parseString rest2).map (fun r => (e :: r.1, r.2))
        else none
    else (parseString rest).map (fun r => (ch :: r.1, r.2))

/-- Whether a character is a decimal digit. -/
def isDigit (ch : Char) : Bool := decide (48 ≤ ch.toNat) && decide (ch.toNat ≤ 57)

/-- Read decimal digits, continuing the number `acc`: the number and the input
from the first character that is not a digit. -/
def parseDigits : Nat → List Char → Nat × List Char
  | acc, [] => (acc, [])
  | acc, ch :: rest =>
    if isDigit ch then parseDigits (10 * acc + (ch.toNat - 48)) rest else (acc, ch :: rest)

/-- Read a JSON number into a `uint64`: at least one digit, value in range. -/
def parseNat (inp : List Char) : Option (Nat × List Char) :=
  match inp with
  | [] => none
  | ch :: _ =>
    if isDigit ch then
      let r := parseDigits 0 inp
      if r.1 < uint64Size then some r else none
    else none

/-- Read the JSON object of an asset. -/
def decodeAsset (inp : List Char) : Option Asset :=
  (expect "\x7b\"ID\":\"".data inp).bind fun r1 =>
  (parseString r1).bind fun p1 =>
  (expect ",\"name\":\"".data p1.2).bind fun r2 =>
  (parseString r2).bind fun p2 =>
  (expect ",\"count\":".data p2.2).bind fun r3 =>
  (parseNat r3).bind fun p3 =>
  (expect ",\"ownerId\":\"".data p3.2).bind fun r4 =>
  (parseString r4).bind fun p4 =>
  match p4.2 with
  | [ch] => if ch = '\x7d' then some ⟨String.mk p1.1, String.mk p2.1, p3.1, String.mk p4.1⟩ else none
  | _ => none

/-- A codec writing and reading the JSON object of an asset. -/
def jsonCodec : Codec where
  Marshal a := .ok (String.mk (encodeAsset a))
  Unmarshal b :=
    match decodeAsset b.data with
    | some a => .ok a
    | none => .error "invalid character in asset JSON"

/-! ## The ledger stub -/

/-- Lexicographic order of keys by code point, the order of their UTF-8 bytes. -/
def keyLt : List Char → List Char → Bool
  | _, [] => false
  | [], _ :: _ => true
  | a :: as, b :: bs =>
    if a.toNat < b.toNat then true
    else if a.toNat = b.toNat then keyLt as bs
    else false

/-- The value stored under a key, if any. -/
def lookup (key : String) : List (String × String) → Option String
  | [] => none
  | (k, v) :: rest => if k = key then some v else lookup key rest

/-- Store a value under a key: replace the entry of the key or add one at its
place in key order. -/
def store (key value : String) : List (String × String) → List (String × String)
  | [] => [(key, value)]
  | (k, v) :: rest =>
    if keyLt key.data k.data then (key, value) :: (k, v) :: rest
    else if k = key then (key, value) :: rest
    else (k, v) :: store key value rest

/-- Remove the entry of a key. -/
def remove (key : String) : List (String × String) → List (String × String)
  | [] => []
  | (k, v) :: rest => if k = key then remove key rest else (k, v) :: remove key rest

/-- The state behind `ctx.GetStub()`: the current world state in ascending key
order and every write and delete issued so far, oldest first (a delete is logged
as `none`). -/
structure Stub where
  world : List (String × String)
  log : List (String × Option String)
  deriving DecidableEq

/-- The empty ledger. -/
def Stub.empty : Stub := ⟨[], []⟩

/-- Which stub calls fail, and with what error text: `getState key`,
`putState key value`, `delState key`, `getStateByRange`, and `next key` for the
`Next` call of a range cursor that reaches the entry of `key`. -/
structure Faults where
  getState : String → Option String
  putState : String → String → Option String
  delState : String → Option String
  getStateByRange : Option String
  next : String → Option String

/-- A stub none of whose calls fail. -/
def noFaults : Faults := ⟨fun _ => none, fun _ _ => none, fun _ => none, none, fun _ => none⟩

/-- Stub `GetState(key)`: the value of the key, `none` standing for Go `nil`. -/
def GetState (f : Faults) (s : Stub) (key : String) : Except String (Option String) :=
  match f.getState key with
  | some e => .error e
  | none => .ok (lookup key s.world)

/-- Stub `PutState(key, value)`. -/
def PutState (f : Faults) (s : Stub) (key value : String) : Except String Unit × Stub :=
  match f.putState key value with
  | some e => (.error e, s)
  | none => (.ok (), ⟨store key value s.world, s.log ++ [(key, some value)]⟩)

/-- Stub `DelState(key)`. -/
def DelState (f : Faults) (s : Stub) (key : String) : Except String Unit × Stub :=
  match f.delState key with
  | some e => (.error e, s)
  | none => (.ok (), ⟨remove key s.world, s.log ++ [(key, none)]⟩)

/-- A cursor (`StateQueryIteratorInterface`): what the coming `Next` calls
return, and whether `Close` has been called. -/
structure StateQueryIterator where
  pending : List (Except String (String × String))
  closed : Bool

/-- Cursor `HasNext()`. -/
def StateQueryIterator.HasNext (it : StateQueryIterator) : Bool := !it.pending.isEmpty

/-- Cursor `Next()`; called only after `HasNext()` returned true. -/
def StateQueryIterator.Next (it : StateQueryIterator) :
    Except String (String × String) × StateQueryIterator :=
  match it.pending with
  | [] => (.error "no more results", it)
  | r :: rest => (r, ⟨rest, it.closed⟩)

/-- Cursor `Close()`. -/
def StateQueryIterator.Close (it : StateQueryIterator) : StateQueryIterator :=
  ⟨it.pending, true⟩

/-- Whether a key lies in the range of `GetStateByRange(startKey, endKey)`: from
`startKey` on and before `endKey`, an empty string meaning no bound. -/
def inRange (startKey endKey key : String) : Bool :=
  (startKey = "" || !keyLt key.data startKey.data) && (endKey = "" || keyLt key.data endKey.data)

/-- Stub `GetStateByRange(startKey, endKey)`: a cursor over the entries of the
range in key order. -/
def GetStateByRange (f : Faults) (s : Stub) (startKey endKey : String) :
    Except String StateQueryIterator :=
  match f.getStateByRange with
  | some e => .error e
  | none =>
    .ok ⟨(s.world.filter (fun kv => inRange startKey endKey kv.1)).map
      (fun kv => match f.next kv.1 with
        | some e => .error e
        | none => .ok kv), false⟩

/-! ## The contract -/

/-- Go `InitLedger(ctx, id, count)`. -/
def InitLedger (c : Codec) (f : Faults) (s : Stub) (id : String) (count : Nat) :
    Except Error Unit × Stub :=
  let asset : Asset := ⟨id ++ "-0", id, count, "0"⟩
  match c.Marshal asset with
  | .error e => (.error (.json e), s)
  | .ok assetJSON =>
    match PutState f s asset.ID assetJSON with
    | (.error e, s1) => (.error (.putFailed e), s1)
    | (.ok _, s1) => (.ok (), s1)

/-- Go `ReadAsset(ctx, id)`. -/
def ReadAsset (c : Codec) (f : Faults) (s : Stub) (id : String) : Except Error Asset × Stub :=
  match GetState f s id with
  | .error e => (.error (.readFailed e), s)
  | .ok none => (.error (.notExist id), s)
  | .ok (some assetJSON) =>
    match c.Unmarshal assetJSON with
    | .error e => (.error (.json e), s)
    | .ok asset => (.ok asset, s)

/-- Go `AssetExists(ctx, id)`. -/
def AssetExists (f : Faults) (s : Stub) (id : String) : Except Error Bool × Stub :=
  match GetState f s id with
  | .error e => (.error (.readFailed e), s)
  | .ok assetJSON => (.ok assetJSON.isSome, s)

/-- Go `DeleteAsset(ctx, id)`. -/
def DeleteAsset (f : Faults) (s : Stub) (id : String) : Except Error Unit × Stub :=
  match AssetExists f s id with
  | (.error e, s1) => (.error e, s1)
  | (.ok false, s1) => (.error (.notExist id), s1)
  | (.ok true, s1) =>
    match DelState f s1 id with
    | (.error e, s2) => (.error (.stub e), s2)
    | (.ok _, s2) => (.ok (), s2)

/-- Go `TransferAsset(ctx, id, newOwnerId, amount)`. -/
def TransferAsset (c : Codec) (f : Faults) (s : Stub) (id newOwnerId : String) (amount : Nat) :
    Except Error Unit × Stub :=
  match ReadAsset c f s id with
  | (.error e, s1) => (.error e, s1)
  | (.ok asset, s1) =>
    let assetCount := asset.Count
    if assetCount < amount then (.error .notEnough, s1)
    else
      let asset : Asset := ⟨asset.ID, asset.Name, subUint64 asset.Count amount, asset.OwnerId⟩
      match c.Marshal asset with
      | .error e => (.error (.json e), s1)
      | .ok assetJSON =>
        let transferredAsset : Asset := ⟨asset.Name ++ "-" ++ newOwnerId, id, amount, newOwnerId⟩
        match c.Marshal transferredAsset with
        | .error e => (.error (.json e), s1)
        | .ok transferredAssetJSON =>
          match PutState f s1 id assetJSON with
          | (.error e, s2) => (.error (.stub e), s2)
          | (.ok _, s2) =>
            match PutState f s2 newOwnerId transferredAssetJSON with
            | (.error e, s3) => (.error (.stub e), s3)
            | (.ok _, s3) => (.ok (), s3)

/-- The loop of `GetAllAssets`, `for resultsIterator.HasNext() ...`, over the
pending results of the cursor: the result and the results left unread. An empty
list is `HasNext()` returning false, `r :: rest` is `Next()` returning `r` and
leaving `rest` (see `GetAllAssets_loop_step`). -/
def GetAllAssets.loop (c : Codec) :
    List (Except String (String × String)) → List Asset →
      Except Error (List Asset) × List (Except String (String × String))
  | [], assets => (.ok assets, [])
  | .error e :: rest, _ => (.error (.stub e), rest)
  | .ok queryResponse :: rest, assets =>
    match c.Unmarshal queryResponse.2 with
    | .error e => (.error (.json e), rest)
    | .ok asset => GetAllAssets.loop c rest (assets ++ [asset])

/-- Go `GetAllAssets(ctx)`: the result, the stub state, and the cursor as the
deferred `Close` leaves it (`none` when no cursor was obtained). -/
def GetAllAssets (c : Codec) (f : Faults) (s : Stub) :
    Except Error (List Asset) × Stub × Option StateQueryIterator :=
  match GetStateByRange f s "" "" with
  | .error e => (.error (.stub e), s, none)
  | .ok resultsIterator =>
    let r := GetAllAssets.loop c resultsIterator.pending []
    (r.1, s, some (StateQueryIterator.Close ⟨r.2, resultsIterator.closed⟩))

/-! ## History -/

/-- One version of a key as a history cursor returns it
(`queryresult.KeyModification`); `Value` is the only field the contract reads. -/
structure KeyModification where
  Value : String
  deriving DecidableEq

/-- A history cursor (`HistoryQueryIteratorInterface`): what the coming `Next`
calls return, and whether `Close` has been called. -/
structure HistoryQueryIterator where
  pending : List (Except String KeyModification)
  closed : Bool

/-- History cursor `HasNext()`. -/
def HistoryQueryIterator.HasNext (it : HistoryQueryIterator) : Bool := !it.pending.isEmpty

/-- History cursor `Next()`; called only after `HasNext()` returned true. -/
def HistoryQueryIterator.Next (it : HistoryQueryIterator) :
    Except String KeyModification × HistoryQueryIterator :=
  match it.pending with
  | [] => (.error "no more results", it)
  | r :: rest => (r, ⟨rest, it.closed⟩)

/-- History cursor `Close()`. -/
def HistoryQueryIterator.Close (it : HistoryQueryIterator) : HistoryQueryIterator :=
  ⟨it.pending, true⟩

/-- The values put under a key so far, oldest first. -/
def versions (key : String) (log : List (String × Option String)) : List String :=
  log.filterMap (fun e => if e.1 = key then e.2 else none)

/-- Which history calls fail: `getHistoryForKey key` is the error of the call,
`nilCursor key` says that the call answers a nil cursor without an error, and
`next key i` is the error of the `Next` call that reaches version `i` of `key`. -/
structure HistoryFaults where
  getHistoryForKey : String → Option String
  nilCursor : String → Bool
  next : String → Nat → Option String

/-- A history none of whose calls fail. -/
def noHistoryFaults : HistoryFaults := ⟨fun _ => none, fun _ => false, fun _ _ => none⟩

/-- What the `Next` calls of a history cursor return for the given versions,
numbered from `i`. -/
def historyResults (next : Nat → Option String) :
    Nat → List String → List (Except String KeyModification)
  | _, [] => []
  | i, v :: rest =>
    (match next i with
      | some e => .error e
      | none => .ok ⟨v⟩) :: historyResults next (i + 1) rest

/-- Modelled from the spec: the stub call `GetHistoryForKey(key)`, which belongs to
the ledger platform and not to the repository. Spec 6: "historyFor(key) -> cursor
over (bytes, metadata) versions, oldest to newest"; spec 3 and 4.6: the store keeps
every version written, also after a delete. A delete adds no version (spec 8: after
the delete the history has two versions, 100 then 70). -/
def GetHistoryForKey (h : HistoryFaults) (s : Stub) (key : String) :
    Except String (Option HistoryQueryIterator) :=
  match h.getHistoryForKey key with
  | some e => .error e
  | none =>
    if h.nilCursor key then .ok none
    else .ok (some ⟨historyResults (h.next key) 0 (versions key s.log), false⟩)

/-- The loop of `ReadHistory`, `for stateQuery.HasNext() ...`, over the pending
results of the cursor: the result and the results left unread. An empty list is
`HasNext()` returning false, `r :: rest` is `Next()` returning `r` and leaving
`rest` (see `ReadHistory_loop_step`). -/
def ReadHistory.loop (c : Codec) :
    List (Except String KeyModification) → List Asset →
      Except Error (List Asset) × List (Except String KeyModification)
  | [], assets => (.ok assets, [])
  | .error e :: rest, _ => (.error (.stub e), rest)
  | .ok queryResponse :: rest, assets =>
    match c.Unmarshal queryResponse.Value with
    | .error e => (.error (.json e), rest)
    | .ok asset => ReadHistory.loop c rest (assets ++ [asset])

/-- Go `ReadHistory(ctx, id)`, with the stub call `ctx.GetStub().GetHistoryForKey`
as the argument `getHistoryForKey`: the result, the stub state, and the cursor as
the call leaves it (`none` when no cursor was obtained). `Close` is called after
the loop only; the two `return nil, err` inside the loop leave the cursor as it
is. The `println` of the cursor is not modelled. -/
def ReadHistory (c : Codec)
    (getHistoryForKey : String → Except String (Option HistoryQueryIterator))
    (s : Stub) (id : String) :
    Except Error (List Asset) × Stub × Option HistoryQueryIterator :=
  match getHistoryForKey id with
  | .error e => (.error (.readFailed e), s, none)
  | .ok none => (.error .noHistory, s, none)
  | .ok (some stateQuery) =>
    match ReadHistory.loop c stateQuery.pending [] with
    | (.error e, rest) => (.error e, s, some ⟨rest, stateQuery.closed⟩)
    | (.ok assets, rest) =>
      (.ok assets, s, some (HistoryQueryIterator.Close ⟨rest, stateQuery.closed⟩))

/-! ## Notions used in the statements -/

/-- Every live record that unmarshals has as its ID the key it is stored under. -/
def KeyIdAgree (c : Codec) (s : Stub) : Prop :=
  ∀ kv ∈ s.world, ∀ a, c.Unmarshal kv.2 = .ok a → a.ID = kv.1

/-- A history whose first `Next` call fails for every key. -/
def firstNextFails : HistoryFaults :=
  ⟨fun _ => none, fun _ => false, fun _ i => if i = 0 then some "stream error" else none⟩

/-- A history that answers a nil cursor for every key. -/
def nilHistory : HistoryFaults := ⟨fun _ => none, fun _ => true, fun _ _ => none⟩

/-- A ledger whose only value, put under the key "k", is not the JSON of an asset. -/
def ledgerRaw : Stub := ⟨[("k", "x")], [("k", some "x")]⟩

/-- The ledger after `InitLedger("widget", 100)`,
`TransferAsset("widget-0", "alice", 30)` and `DeleteAsset("widget-0")` on the empty
ledger. -/
def ledgerDeleted : Stub :=
  (DeleteAsset noFaults
    (TransferAsset jsonCodec noFaults
      (InitLedger jsonCodec noFaults Stub.empty "widget" 100).2 "widget-0" "alice" 30).2
    "widget-0").2


/-- The keys of a world state are in strictly ascending order. -/
def Ascending (l : List (String × String)) : Prop :=
  l.Pairwise (fun p q => keyLt p.1.data q.1.data = true)

/-- The count of the asset a stored value unmarshals to (`0` if it does not). -/
def countOf (c : Codec) (value : String) : Nat :=
  match c.Unmarshal value with
  | .ok a => a.Count
  | .error _ => 0

/-- The sum of the counts of all live records. -/
def totalCount (c : Codec) (s : Stub) : Nat :=
  (s.world.map (fun kv => countOf c kv.2)).sum

/-- The ledger after `InitLedger("widget", 100)` on the empty ledger. -/
def ledgerWidget : Stub := (InitLedger jsonCodec noFaults Stub.empty "widget" 100).2

/-- The ledger after `InitLedger("widget", 100)` and
`TransferAsset("widget-0", "alice", 30)` on the empty ledger. -/
def ledgerAlice : Stub :=
  (TransferAsset jsonCodec noFaults ledgerWidget "widget-0" "alice" 30).2

/-- The ledger after `InitLedger("a", 10)` and `InitLedger("b", 10)` on the empty
ledger. -/
def ledgerTwo : Stub :=
  (InitLedger jsonCodec noFaults (InitLedger jsonCodec noFaults Stub.empty "a" 10).2 "b" 10).2

/-- The ledger after `TransferAsset("a-0", "alice", 3)` and
`TransferAsset("b-0", "alice", 4)` on `ledgerTwo`. -/
def ledgerTwoTransferred : Stub :=
  (TransferAsset jsonCodec noFaults
    (TransferAsset jsonCodec noFaults ledgerTwo "a-0" "alice" 3).2 "b-0" "alice" 4).2

/-! ## Go strings as byte strings

A Go string is a sequence of bytes, and `json.Marshal` coerces every string value to
valid UTF-8. The embedding above takes strings as texts, that is as Go strings that
are valid UTF-8. This section embeds `InitLedger` and `ReadAsset` once more with
strings as bytes. -/

/-- A Go string: a sequence of bytes. -/
abbrev GoString := List UInt8

/-- The UTF-8 bytes of a code point. -/
def utf8Char (n : Nat) : List Nat :=
  if n < 0x80 then [n]
  else if n < 0x800 then [0xC0 + n / 0x40, 0x80 + n % 0x40]
  else if n < 0x10000 then [0xE0 + n / 0x1000, 0x80 + n / 0x40 % 0x40, 0x80 + n % 0x40]
  else [0xF0 + n / 0x40000, 0x80 + n / 0x1000 % 0x40, 0x80 + n / 0x40 % 0x40, 0x80 + n % 0x40]

/-- The Go string of a text: its UTF-8 bytes. -/
def bytesOf (text : String) : GoString :=
  (text.data.flatMap (fun ch => utf8Char ch.toNat)).map UInt8.ofNat

/-- Whether a byte is a UTF-8 continuation byte. -/
def isCont (b : Nat) : Bool := decide (0x80 ≤ b) && decide (b ≤ 0xBF)

/-- Go `utf8.DecodeRune`: the code point at the front of the bytes and its width;
a byte that starts no valid sequence gives U+FFFD and width 1. -/
def decodeRune : List Nat → Nat × Nat
  | [] => (0xFFFD, 0)
  | b0 :: rest =>
    if b0 < 0x80 then (b0, 1)
    else if 0xC2 ≤ b0 ∧ b0 ≤ 0xDF then
      match rest with
      | b1 :: _ =>
        if isCont b1 then ((b0 - 0xC0) * 0x40 + (b1 - 0x80), 2) else (0xFFFD, 1)
      | _ => (0xFFFD, 1)
    else if 0xE0 ≤ b0 ∧ b0 ≤ 0xEF then
      match rest with
      | b1 :: b2 :: _ =>
        if (if b0 = 0xE0 then 0xA0 else 0x80) ≤ b1 ∧ b1 ≤ (if b0 = 0xED then 0x9F else 0xBF) ∧
            isCont b2 then
          ((b0 - 0xE0) * 0x1000 + (b1 - 0x80) * 0x40 + (b2 - 0x80), 3)
        else (0xFFFD, 1)
      | _ => (0xFFFD, 1)
    else if 0xF0 ≤ b0 ∧ b0 ≤ 0xF4 then
      match rest with
      | b1 :: b2 :: b3 :: _ =>
        if (if b0 = 0xF0 then 0x90 else 0x80) ≤ b1 ∧ b1 ≤ (if b0 = 0xF4 then 0x8F else 0xBF) ∧
            isCont b2 ∧ isCont b3 then
          ((b0 - 0xF0) * 0x40000 + (b1 - 0x80) * 0x1000 + (b2 - 0x80) * 0x40 + (b3 - 0x80), 4)
        else (0xFFFD, 1)
      | _ => (0xFFFD, 1)
    else (0xFFFD, 1)

/-- The runes of a byte sequence, at most `fuel` of them. -/
def runes : Nat → List Nat → List Char
  | 0, _ => []
  | _ + 1, [] => []
  | fuel + 1, b :: rest =>
    Char.ofNat (decodeRune (b :: rest)).1 ::
      runes fuel ((b :: rest).drop (decodeRune (b :: rest)).2)

/-- The coercion of a Go string to valid UTF-8 that `json.Marshal` applies to string
values: every byte that starts no valid sequence is replaced by U+FFFD. -/
def toValidUTF8 (str : GoString) : String :=
  String.mk (runes str.length (str.map UInt8.toNat))

/-- Go `type Asset struct` with its strings as the byte strings they are. -/
structure Raw.Asset where
  ID : GoString
  Name : GoString
  Count : Nat
  OwnerId : GoString
  deriving DecidableEq

/-- The asset `json.Marshal` writes for a Go value: every string coerced to valid
UTF-8. -/
def Raw.Asset.text (a : Raw.Asset) : Chaincode.Asset :=
  ⟨toValidUTF8 a.ID, toValidUTF8 a.Name, a.Count, toValidUTF8 a.OwnerId⟩

/-- The Go value `json.Unmarshal` stores for an asset read from JSON: every string
as its UTF-8 bytes. -/
def Raw.Asset.ofText (a : Chaincode.Asset) : Raw.Asset :=
  ⟨bytesOf a.ID, bytesOf a.Name, a.Count, bytesOf a.OwnerId⟩

/-- Go `json.Marshal(asset)` on a Go value. -/
def Raw.Marshal (c : Codec) (a : Raw.Asset) : Except String String := c.Marshal a.text

/-- Go `json.Unmarshal(assetJSON, &asset)` into a Go value. -/
def Raw.Unmarshal (c : Codec) (value : String) : Except String Raw.Asset :=
  match c.Unmarshal value with
  | .error e => .error e
  | .ok a => .ok (Raw.Asset.ofText a)

/-- Lexicographic order of keys by byte. -/
def Raw.keyLt : GoString → GoString → Bool
  | _, [] => false
  | [], _ :: _ => true
  | a :: as, b :: bs =>
    if a.toNat < b.toNat then true
    else if a.toNat = b.toNat then Raw.keyLt as bs
    else false

/-- The value stored under a key, if any. -/
def Raw.lookup (key : GoString) : List (GoString × String) → Option String
  | [] => none
  | (k, v) :: rest => if k = key then some v else Raw.lookup key rest

/-- Store a value under a key: replace the entry of the key or add one at its
place in key order. -/
def Raw.store (key : GoString) (value : String) :
    List (GoString × String) → List (GoString × String)
  | [] => [(key, value)]
  | (k, v) :: rest =>
    if Raw.keyLt key k then (key, value) :: (k, v) :: rest
    else if k = key then (key, value) :: rest
    else (k, v) :: Raw.store key value rest

/-- The state behind `ctx.GetStub()`, keys as byte strings. -/
structure Raw.Stub where
  world : List (GoString × String)
  log : List (GoString × Option String)
  deriving DecidableEq

/-- The empty ledger. -/
def Raw.Stub.empty : Raw.Stub := ⟨[], []⟩

/-- Which stub calls fail, and with what error text. -/
structure Raw.Faults where
  getState : GoString → Option String
  putState : GoString → String → Option String

/-- A stub none of whose calls fail. -/
def Raw.noFaults : Raw.Faults := ⟨fun _ => none, fun _ _ => none⟩

/-- Stub `GetState(key)`. -/
def Raw.GetState (f : Raw.Faults) (s : Raw.Stub) (key : GoString) :
    Except String (Option String) :=
  match f.getState key with
  | some e => .error e
  | none => .ok (Raw.lookup key s.world)

/-- Stub `PutState(key, value)`. -/
def Raw.PutState (f : Raw.Faults) (s : Raw.Stub) (key : GoString) (value : String) :
    Except String Unit × Raw.Stub :=
  match f.putState key value with
  | some e => (.error e, s)
  | none => (.ok (), ⟨Raw.store key value s.world, s.log ++ [(key, some value)]⟩)

/-- Go `InitLedger(ctx, id, count)`. -/
def Raw.InitLedger (c : Codec) (f : Raw.Faults) (s : Raw.Stub) (id : GoString) (count : Nat) :
    Except Error Unit × Raw.Stub :=
  let asset : Raw.Asset := ⟨id ++ bytesOf "-0", id, count, bytesOf "0"⟩
  match Raw.Marshal c asset with
  | .error e => (.error (.json e), s)
  | .ok assetJSON =>
    match Raw.PutState f s asset.ID assetJSON with
    | (.error e, s1) => (.error (.putFailed e), s1)
    | (.ok _, s1) => (.ok (), s1)

/-- Go `ReadAsset(ctx, id)`; the not-exist error carries the id as a text. -/
def Raw.ReadAsset (c : Codec) (f : Raw.Faults) (s : Raw.Stub) (id : GoString) :
    Except Error Raw.Asset × Raw.Stub :=
  match Raw.GetState f s id with
  | .error e => (.error (.readFailed e), s)
  | .ok none => (.error (.notExist (toValidUTF8 id)), s)
  | .ok (some assetJSON) =>
    match Raw.Unmarshal c assetJSON with
    | .error e => (.error (.json e), s)
    | .ok asset => (.ok asset, s)

/-! ## The store -/

theorem lookup_store_same (key value : String) (l : List (String × String)) :
    lookup key (store key value l) = some value := by
  induction l with
  | nil => simp [store, lookup]
  | cons kv rest ih =>
    obtain ⟨k, v⟩ := kv
    unfold store
    split
    · simp [lookup]
    · split
      · simp [lookup]
      · rename_i hne
        simp [lookup, hne, ih]

theorem lookup_store_other (key value other : String) (h : other ≠ key)
    (l : List (String × String)) :
    lookup other (store key value l) = lookup other l := by
  induction l with
  | nil => simp [store, lookup, Ne.symm h]
  | cons kv rest ih =>
    obtain ⟨k, v⟩ := kv
    unfold store
    split
    · simp [lookup, Ne.symm h]
    · split
      · rename_i hk
        simp [lookup, Ne.symm h, hk]
      · simp [lookup, ih]

theorem lookup_remove_same (key : String) (l : List (String × String)) :
    lookup key (remove key l) = none := by
  induction l with
  | nil => simp [remove, lookup]
  | cons kv rest ih =>
    obtain ⟨k, v⟩ := kv
    unfold remove
    split
    · exact ih
    · rename_i hne
      simp [lookup, hne, ih]

theorem lookup_remove_other (key other : String) (h : other ≠ key)
    (l : List (String × String)) :
    lookup other (remove key l) = lookup other l := by
  induction l with
  | nil => simp [remove, lookup]
  | cons kv rest ih =>
    obtain ⟨k, v⟩ := kv
    unfold remove
    split
    · rename_i hk
      have : k ≠ other := fun e => h (e.symm.trans hk)
      simp [lookup, this, ih]
    · simp [lookup, ih]

theorem keyLt_irrefl (a : List Char) : keyLt a a = false := by
  induction a with
  | nil => rfl
  | cons ch a ih => simp [keyLt, ih]

theorem keyLt_cons (x y : Char) (a b : List Char) :
    keyLt (x :: a) (y :: b) = true ↔
      x.toNat < y.toNat ∨ (x.toNat = y.toNat ∧ keyLt a b = true) := by
  simp only [keyLt]
  by_cases h1 : x.toNat < y.toNat
  · simp [h1]
  · by_cases h2 : x.toNat = y.toNat
    · simp [h2]
    · simp [h1, h2]

theorem keyLt_trans (a b d : List Char) (hab : keyLt a b = true) (hbd : keyLt b d = true) :
    keyLt a d = true := by
  induction a generalizing b d with
  | nil =>
    cases b with
    | nil => simp [keyLt] at hab
    | cons y b =>
      cases d with
      | nil => simp [keyLt] at hbd
      | cons z d => simp [keyLt]
  | cons x a ih =>
    cases b with
    | nil => simp [keyLt] at hab
    | cons y b =>
      cases d with
      | nil => simp [keyLt] at hbd
      | cons z d =>
        rw [keyLt_cons] at hab hbd ⊢
        rcases hab with hab | ⟨hxy, hab⟩
        · rcases hbd with hbd | ⟨hyz, hbd⟩
          · exact Or.inl (by omega)
          · exact Or.inl (by omega)
        · rcases hbd with hbd | ⟨hyz, hbd⟩
          · exact Or.inl (by omega)
          · exact Or.inr ⟨by omega, ih b d hab hbd⟩

theorem keyLt_connex (a b : List Char) (hne : a ≠ b) (h : keyLt a b = false) :
    keyLt b a = true := by
  induction a generalizing b with
  | nil =>
    cases b with
    | nil => exact absurd rfl hne
    | cons y b => simp [keyLt] at h
  | cons x a ih =>
    cases b with
    | nil => simp [keyLt]
    | cons y b =>
      simp only [keyLt] at h ⊢
      by_cases hxy : x.toNat < y.toNat
      · simp [hxy] at h
      · by_cases hxy2 : x.toNat = y.toNat
        · have hch : x = y := by
            have := congrArg Char.ofNat hxy2
            simpa using this
          subst hch
          simp only [lt_self_iff_false, if_false, if_true] at h ⊢
          exact ih b (fun e => hne (by rw [e])) h
        · have : y.toNat < x.toNat := by omega
          simp [this]

theorem Ascending_store (key value : String) (l : List (String × String)) (h : Ascending l) :
    Ascending (store key value l) ∧
    ∀ p ∈ store key value l, p ∈ l ∨ p = (key, value) := by
  induction l with
  | nil => simp [store, Ascending]
  | cons kv rest ih =>
    obtain ⟨k, v⟩ := kv
    unfold Ascending at h
    rw [List.pairwise_cons] at h
    obtain ⟨hhead, htail⟩ := h
    obtain ⟨ih1, ih2⟩ := ih htail
    unfold store
    split
    · rename_i hlt
      constructor
      · unfold Ascending
        rw [List.pairwise_cons, List.pairwise_cons]
        refine ⟨?_, hhead, htail⟩
        intro q hq
        rcases List.mem_cons.1 hq with rfl | hq
        · exact hlt
        · exact keyLt_trans _ _ _ hlt (hhead q hq)
      · intro p hp
        rcases List.mem_cons.1 hp with rfl | hp
        · exact Or.inr rfl
        · exact Or.inl hp
    · split
      · rename_i hlt heq
        subst heq
        constructor
        · unfold Ascending
          rw [List.pairwise_cons]
          exact ⟨hhead, htail⟩
        · intro p hp
          rcases List.mem_cons.1 hp with rfl | hp
          · exact Or.inr rfl
          · exact Or.inl (List.mem_cons_of_mem _ hp)
      · rename_i hlt hne
        have hkk : keyLt k.data key.data = true := by
          apply keyLt_connex
          · intro e
            exact hne (by cases k; cases key; simp_all)
          · simpa using hlt
        constructor
        · unfold Ascending
          rw [List.pairwise_cons]
          refine ⟨?_, ih1⟩
          intro q hq
          rcases ih2 q hq with hq | rfl
          · exact hhead q hq
          · exact hkk
        · intro p hp
          rcases List.mem_cons.1 hp with rfl | hp
          · exact Or.inl (List.mem_cons_self _ _)
          · rcases ih2 p hp with hp | rfl
            · exact Or.inl (List.mem_cons_of_mem _ hp)
            · exact Or.inr rfl

theorem Ascending_remove (key : String) (l : List (String × String)) (h : Ascending l) :
    Ascending (remove key l) ∧ ∀ p ∈ remove key l, p ∈ l := by
  induction l with
  | nil => simp [remove, Ascending]
  | cons kv rest ih =>
    obtain ⟨k, v⟩ := kv
    unfold Ascending at h
    rw [List.pairwise_cons] at h
    obtain ⟨hhead, htail⟩ := h
    obtain ⟨ih1, ih2⟩ := ih htail
    unfold remove
    split
    · exact ⟨ih1, fun p hp => List.mem_cons_of_mem _ (ih2 p hp)⟩
    · constructor
      · unfold Ascending
        rw [List.pairwise_cons]
        exact ⟨fun q hq => hhead q (ih2 q hq), ih1⟩
      · intro p hp
        rcases List.mem_cons.1 hp with rfl | hp
        · exact List.mem_cons_self _ _
        · exact List.mem_cons_of_mem _ (ih2 p hp)

theorem lookup_of_mem (l : List (String × String)) (h : Ascending l) (k v : String)
    (hm : (k, v) ∈ l) : lookup k l = some v := by
  induction l with
  | nil => simp at hm
  | cons kv rest ih =>
    obtain ⟨k0, v0⟩ := kv
    unfold Ascending at h
    rw [List.pairwise_cons] at h
    obtain ⟨hhead, htail⟩ := h
    rcases List.mem_cons.1 hm with heq | hm
    · cases heq
      simp [lookup]
    · have hlt := hhead _ hm
      have hne : k0 ≠ k := by
        intro e
        subst e
        rw [keyLt_irrefl] at hlt
        cases hlt
      simp [lookup, hne, ih htail hm]

theorem mem_of_lookup (l : List (String × String)) (k v : String)
    (h : lookup k l = some v) : (k, v) ∈ l := by
  induction l with
  | nil => simp [lookup] at h
  | cons kv rest ih =>
    obtain ⟨k0, v0⟩ := kv
    unfold lookup at h
    split at h
    · rename_i heq
      subst heq
      simp at h
      subst h
      exact List.mem_cons_self _ _
    · exact List.mem_cons_of_mem _ (ih h)

/-! ## The JSON codec -/

theorem expect_append (p rest : List Char) : expect p (p ++ rest) = some rest := by
  induction p with
  | nil => simp [expect]
  | cons ch p ih => simp [expect, ih]

theorem parseString_quote (rest : List Char) : parseString ('"' :: rest) = some ([], rest) := by
  unfold parseString
  simp

theorem parseString_backslash (e : Char) (rest : List Char) (h : e = '"' ∨ e = '\\') :
    parseString ('\\' :: e :: rest) = (parseString rest).map (fun r => (e :: r.1, r.2)) := by
  conv => lhs; unfold parseString
  simp [h]

theorem parseString_plain (ch : Char) (rest : List Char) (h1 : ch ≠ '"') (h2 : ch ≠ '\\') :
    parseString (ch :: rest) = (parseString rest).map (fun r => (ch :: r.1, r.2)) := by
  conv => lhs; unfold parseString
  simp [h1, h2]

theorem parseString_escape (str rest : List Char) :
    parseString (escape str ++ '"' :: rest) = some (str, rest) := by
  induction str with
  | nil => simp [escape, parseString_quote]
  | cons ch str ih =>
    unfold escape
    split
    · rename_i h
      subst h
      simp [parseString_backslash, ih]
    · split
      · rename_i h1 h2
        subst h2
        simp [parseString_backslash, ih]
      · rename_i h1 h2
        simp [parseString_plain _ _ h1 h2, ih]

theorem isDigit_digitChar (d : Nat) (h : d < 10) : isDigit (digitChar d) = true := by
  interval_cases d <;> rfl

theorem toNat_digitChar (d : Nat) (h : d < 10) : (digitChar d).toNat - 48 = d := by
  interval_cases d <;> rfl

theorem digitsAux_append (fuel n : Nat) (acc rest : List Char) :
    digitsAux fuel n acc ++ rest = digitsAux fuel n (acc ++ rest) := by
  induction fuel generalizing n acc with
  | zero => simp [digitsAux]
  | succ fuel ih =>
    unfold digitsAux
    split
    · simp
    · rw [ih]
      simp

theorem digitsAux_head (fuel n : Nat) (acc : List Char) :
    ∃ d tl, digitsAux (fuel + 1) n acc = d :: tl ∧ isDigit d = true := by
  induction fuel generalizing n acc with
  | zero =>
    refine ⟨digitChar (n % 10), acc, ?_, isDigit_digitChar _ (Nat.mod_lt _ (by decide))⟩
    unfold digitsAux
    split
    · rfl
    · simp [digitsAux]
  | succ fuel ih =>
    unfold digitsAux
    split
    · exact ⟨_, _, rfl, isDigit_digitChar _ (Nat.mod_lt _ (by decide))⟩
    · exact ih _ _

theorem parseDigits_digitChar (a d : Nat) (h : d < 10) (rest : List Char) :
    parseDigits a (digitChar d :: rest) = parseDigits (10 * a + d) rest := by
  simp [parseDigits, isDigit_digitChar d h, toNat_digitChar d h]

theorem parseDigits_digitsAux (fuel : Nat) :
    ∀ (n : Nat) (acc : List Char), n < fuel →
      ∃ k, ∀ a, parseDigits a (digitsAux fuel n acc) = parseDigits (a * 10 ^ k + n) acc := by
  induction fuel with
  | zero => intro n acc h; omega
  | succ fuel ih =>
    intro n acc h
    have hd : n % 10 < 10 := Nat.mod_lt _ (by decide)
    unfold digitsAux
    split
    · rename_i h0
      refine ⟨1, fun a => ?_⟩
      rw [parseDigits_digitChar a _ hd]
      have : n % 10 = n := by omega
      rw [this]
      congr 1
      omega
    · rename_i h0
      have hlt : n / 10 < fuel := by omega
      obtain ⟨k, hk⟩ := ih (n / 10) (digitChar (n % 10) :: acc) hlt
      refine ⟨k + 1, fun a => ?_⟩
      rw [hk a, parseDigits_digitChar _ _ hd]
      congr 1
      rw [pow_succ]
      have := Nat.div_add_mod n 10
      nlinarith [this]

theorem parseNat_encodeNat (n : Nat) (h : n < uint64Size) (ch : Char) (rest : List Char)
    (hch : isDigit ch = false) :
    parseNat (encodeNat n ++ ch :: rest) = some (n, ch :: rest) := by
  unfold encodeNat
  rw [digitsAux_append]
  obtain ⟨d, tl, hd, hdig⟩ := digitsAux_head n n ([] ++ ch :: rest)
  obtain ⟨k, hk⟩ := parseDigits_digitsAux (n + 1) n ([] ++ ch :: rest) (Nat.lt_succ_self n)
  have hval : parseDigits 0 (digitsAux (n + 1) n ([] ++ ch :: rest)) = (n, ch :: rest) := by
    rw [hk 0]
    simp [parseDigits, hch]
  unfold parseNat
  rw [hd] at hval ⊢
  simp [hdig, hval, h]

theorem decodeAsset_encodeAsset (a : Asset) (h : a.Count < uint64Size) :
    decodeAsset (encodeAsset a) = some a := by
  have hshape : encodeAsset a =
      "\x7b\"ID\":\"".data ++ (escape a.ID.data ++ '"' ::
        (",\"name\":\"".data ++ (escape a.Name.data ++ '"' ::
          (",\"count\":".data ++ (encodeNat a.Count ++ ',' ::
            ("\"ownerId\":\"".data ++ (escape a.OwnerId.data ++ '"' :: ['\x7d']))))))) := by
    simp [encodeAsset, quote]
  have hcomma : isDigit ',' = false := by decide
  have hrest : (',' :: ("\"ownerId\":\"".data ++ (escape a.OwnerId.data ++ '"' :: ['\x7d']))) =
      ",\"ownerId\":\"".data ++ (escape a.OwnerId.data ++ '"' :: ['\x7d']) := rfl
  rw [hshape]
  unfold decodeAsset
  rw [expect_append]
  simp only [Option.bind, parseString_escape, expect_append,
    parseNat_encodeNat a.Count h ',' _ hcomma]
  rw [hrest, expect_append]
  simp [parseString_escape]

theorem parseNat_range (inp : List Char) (r : Nat × List Char) (h : parseNat inp = some r) :
    r.1 < uint64Size := by
  unfold parseNat at h
  split at h
  · simp at h
  · split at h
    · simp only at h
      split at h
      · rename_i hlt
        simp at h
        rw [← h]
        exact hlt
      · simp at h
    · simp at h

theorem decodeAsset_range (inp : List Char) (a : Asset) (h : decodeAsset inp = some a) :
    a.Count < uint64Size := by
  unfold decodeAsset at h
  simp only [Option.bind_eq_some] at h
  obtain ⟨r1, -, p1, -, r2, -, p2, -, r3, -, p3, hp3, r4, -, p4, -, h⟩ := h
  have hr := parseNat_range _ _ hp3
  split at h
  · split at h
    · simp at h
      rw [← h]
      exact hr
    · simp at h
  · simp at h

/-- The JSON codec is one the contract can rely on. -/
theorem jsonCodec_lawful : jsonCodec.Lawful := by
  constructor
  · intro a h
    exact ⟨String.mk (encodeAsset a), rfl, by simp [jsonCodec, decodeAsset_encodeAsset a h]⟩
  · intro b a h
    simp only [jsonCodec] at h
    split at h
    · rename_i a0 h0
      simp at h
      rw [← h]
      exact decodeAsset_range _ _ h0
    · simp at h

/-! ## The contract -/

theorem subUint64_of_le (a b : Nat) (ha : a < uint64Size) (hb : b ≤ a) :
    subUint64 a b = a - b := by
  unfold subUint64
  have hb2 : b % uint64Size = b := Nat.mod_eq_of_lt (by omega)
  rw [hb2]
  have : a + uint64Size - b = (a - b) + uint64Size := by omega
  rw [this, Nat.add_mod_right]
  exact Nat.mod_eq_of_lt (by omega)

theorem ReadAsset_stub (c : Codec) (f : Faults) (s : Stub) (id : String) :
    (ReadAsset c f s id).2 = s := by
  unfold ReadAsset
  split
  · rfl
  · rfl
  · split <;> rfl

theorem ReadAsset_of_value (c : Codec) (f : Faults) (s : Stub) (id v : String) (a : Asset)
    (hget : GetState f s id = .ok (some v)) (hdec : c.Unmarshal v = .ok a) :
    ReadAsset c f s id = (.ok a, s) := by
  simp [ReadAsset, hget, hdec]

theorem GetState_PutState_same (f : Faults) (s : Stub) (key value : String)
    (hput : f.putState key value = none) (hget : f.getState key = none) :
    GetState f (PutState f s key value).2 key = .ok (some value) := by
  simp [GetState, PutState, hput, hget, lookup_store_same]

theorem GetState_PutState_other (f : Faults) (s : Stub) (key value other : String)
    (h : other ≠ key) :
    GetState f (PutState f s key value).2 other = GetState f s other := by
  unfold GetState PutState
  cases f.putState key value <;> simp [lookup_store_other _ _ _ h]

/-- On texts: after `InitLedger(id, count)` with `count` a `uint64`, on a stub that
accepts the put and answers the get, `InitLedger` has succeeded, the value stored under
`id + "-0"` is the marshalled asset and unmarshals to it, and `ReadAsset(id + "-0")`
returns exactly the asset with ID `id + "-0"`, name `id`, the count and owner `"0"`. -/
theorem InitLedger_ReadAsset (c : Codec) (hc : c.Lawful) (f : Faults) (s : Stub) (id : String)
    (count : Nat) (hcount : count < uint64Size)
    (hput : ∀ value, f.putState (id ++ "-0") value = none)
    (hget : f.getState (id ++ "-0") = none) :
    (InitLedger c f s id count).1 = .ok () ∧
    (∃ v, GetState f (InitLedger c f s id count).2 (id ++ "-0") = .ok (some v) ∧
      c.Marshal ⟨id ++ "-0", id, count, "0"⟩ = .ok v ∧
      c.Unmarshal v = .ok ⟨id ++ "-0", id, count, "0"⟩) ∧
    (ReadAsset c f (InitLedger c f s id count).2 (id ++ "-0")).1 =
      .ok ⟨id ++ "-0", id, count, "0"⟩ := by
  obtain ⟨v, hm, hu⟩ := hc.1 ⟨id ++ "-0", id, count, "0"⟩ hcount
  have hst : InitLedger c f s id count = (.ok (), (PutState f s (id ++ "-0") v).2) := by
    simp [InitLedger, hm, PutState, hput v]
  have hg := GetState_PutState_same f s (id ++ "-0") v (hput v) hget
  rw [hst]
  refine ⟨rfl, ⟨v, hg, hm, hu⟩, ?_⟩
  rw [ReadAsset_of_value c f _ _ v _ hg hu]

theorem InitLedger_ReadAsset_witness :
    (InitLedger jsonCodec noFaults Stub.empty "widget" 100).1 = .ok () ∧
    (∃ v, GetState noFaults (InitLedger jsonCodec noFaults Stub.empty "widget" 100).2
        ("widget" ++ "-0") = .ok (some v) ∧
      jsonCodec.Marshal ⟨"widget" ++ "-0", "widget", 100, "0"⟩ = .ok v ∧
      jsonCodec.Unmarshal v = .ok ⟨"widget" ++ "-0", "widget", 100, "0"⟩) ∧
    (ReadAsset jsonCodec noFaults (InitLedger jsonCodec noFaults Stub.empty "widget" 100).2
        ("widget" ++ "-0")).1 = .ok ⟨"widget" ++ "-0", "widget", 100, "0"⟩ :=
  InitLedger_ReadAsset jsonCodec jsonCodec_lawful noFaults Stub.empty "widget" 100
    (by decide) (fun _ => rfl) rfl

/-- C7: when nothing is stored under `id` (the stub answers `nil` without error),
`TransferAsset(id, newOwnerId, amount)` fails with the error "the asset id does not
exist" for every new owner and amount, and leaves the stub as it was: nothing is
written. -/
theorem TransferAsset_absent (c : Codec) (f : Faults) (s : Stub) (id newOwnerId : String)
    (amount : Nat) (h : GetState f s id = .ok none) :
    TransferAsset c f s id newOwnerId amount = (.error (.notExist id), s) := by
  simp [TransferAsset, ReadAsset, h]

theorem TransferAsset_absent_witness :
    GetState noFaults Stub.empty "widget-0" = .ok none ∧
    TransferAsset jsonCodec noFaults Stub.empty "widget-0" "alice" 30 =
      (.error (.notExist "widget-0"), Stub.empty) :=
  ⟨rfl, TransferAsset_absent jsonCodec noFaults Stub.empty "widget-0" "alice" 30 rfl⟩

/-- C3: when the value stored under `id` unmarshals to an asset of count `C` and
`amount > C`, `TransferAsset(id, newOwnerId, amount)` fails with the error "Stock does
not have enough count!" and leaves the stub as it was: nothing is written, so
`ReadAsset(id)` still returns the asset with count `C` and every key holds what it
held. -/
theorem TransferAsset_insufficient (c : Codec) (f : Faults) (s : Stub) (id newOwnerId : String)
    (amount : Nat) (v : String) (a : Asset)
    (hget : GetState f s id = .ok (some v)) (hdec : c.Unmarshal v = .ok a)
    (hgt : a.Count < amount) :
    TransferAsset c f s id newOwnerId amount = (.error .notEnough, s) ∧
    (ReadAsset c f (TransferAsset c f s id newOwnerId amount).2 id).1 = .ok a ∧
    ∀ key, GetState f (TransferAsset c f s id newOwnerId amount).2 key = GetState f s key := by
  have h : TransferAsset c f s id newOwnerId amount = (.error .notEnough, s) := by
    simp [TransferAsset, ReadAsset, hget, hdec, hgt]
  rw [h]
  refine ⟨rfl, ?_, fun _ => rfl⟩
  rw [ReadAsset_of_value c f s id v a hget hdec]

/-- C9: `ReadAsset(id)` fails with "the asset id does not exist" exactly when the stub
answers `nil` for `id`; when a value is stored that does not unmarshal it fails with
the error of `json.Unmarshal`; when the value unmarshals it returns the asset; and it
never changes the stub. -/
theorem ReadAsset_cases (c : Codec) (f : Faults) (s : Stub) (id : String) :
    ((ReadAsset c f s id).1 = .error (.notExist id) ↔ GetState f s id = .ok none) ∧
    (∀ v e, GetState f s id = .ok (some v) → c.Unmarshal v = .error e →
      (ReadAsset c f s id).1 = .error (.json e)) ∧
    (∀ v a, GetState f s id = .ok (some v) → c.Unmarshal v = .ok a →
      (ReadAsset c f s id).1 = .ok a) ∧
    (ReadAsset c f s id).2 = s := by
  refine ⟨?_, ?_, ?_, ReadAsset_stub c f s id⟩
  · unfold ReadAsset
    split
    · rename_i e h
      simp [h]
    · rename_i h
      simp [h]
    · rename_i v h
      split <;> simp [h]
  · intro v e hget hdec
    simp [ReadAsset, hget, hdec]
  · intro v a hget hdec
    simp [ReadAsset, hget, hdec]

/-- C8: `DeleteAsset(id)` fails with "the asset id does not exist" exactly when
`AssetExists(id)` is false, and then the stub is unchanged; when `AssetExists(id)` is
true and the stub accepts the delete, it succeeds, `AssetExists(id)` is false
afterwards, and every other key holds what it held. -/
theorem DeleteAsset_cases (f : Faults) (s : Stub) (id : String) :
    ((DeleteAsset f s id).1 = .error (.notExist id) ↔ (AssetExists f s id).1 = .ok false) ∧
    ((AssetExists f s id).1 = .ok false → (DeleteAsset f s id).2 = s) ∧
    ((AssetExists f s id).1 = .ok true → f.delState id = none →
      (DeleteAsset f s id).1 = .ok () ∧
      (AssetExists f (DeleteAsset f s id).2 id).1 = .ok false ∧
      ∀ key, key ≠ id → GetState f (DeleteAsset f s id).2 key = GetState f s key) := by
  unfold DeleteAsset AssetExists GetState
  cases hg : f.getState id with
  | some e => simp
  | none =>
    cases hl : lookup id s.world with
    | none => simp
    | some v =>
      simp only [Option.isSome_some, DelState]
      refine ⟨by cases hd : f.delState id <;> simp, by simp, ?_⟩
      intro _ hd
      simp only [hd, hg, lookup_remove_same, Option.isSome_none, true_and]
      intro key hkey
      cases f.getState key <;> simp [lookup_remove_other _ _ hkey]

/-! ### Transfer -/

theorem TransferAsset_ok_inv (c : Codec) (f : Faults) (s : Stub) (id newOwnerId : String)
    (amount : Nat) (hok : (TransferAsset c f s id newOwnerId amount).1 = .ok ()) :
    ∃ v a j1 j2, GetState f s id = .ok (some v) ∧ c.Unmarshal v = .ok a ∧ amount ≤ a.Count ∧
      c.Marshal ⟨a.ID, a.Name, subUint64 a.Count amount, a.OwnerId⟩ = .ok j1 ∧
      c.Marshal ⟨a.Name ++ "-" ++ newOwnerId, id, amount, newOwnerId⟩ = .ok j2 ∧
      (TransferAsset c f s id newOwnerId amount).2 =
        ⟨store newOwnerId j2 (store id j1 s.world),
          s.log ++ [(id, some j1)] ++ [(newOwnerId, some j2)]⟩ := by
  unfold TransferAsset ReadAsset at hok ⊢
  cases hg : GetState f s id with
  | error e => simp [hg] at hok
  | ok o =>
    cases o with
    | none => simp [hg] at hok
    | some v =>
      cases hd : c.Unmarshal v with
      | error e => simp [hg, hd] at hok
      | ok a =>
        simp only [hg, hd] at hok ⊢
        by_cases hlt : a.Count < amount
        · simp [hlt] at hok
        · simp only [hlt, if_false] at hok ⊢
          cases hm1 : c.Marshal ⟨a.ID, a.Name, subUint64 a.Count amount, a.OwnerId⟩ with
          | error e => simp [hm1] at hok
          | ok j1 =>
            cases hm2 : c.Marshal ⟨a.Name ++ "-" ++ newOwnerId, id, amount, newOwnerId⟩ with
            | error e => simp [hm1, hm2] at hok
            | ok j2 =>
              simp only [hm1, hm2, PutState] at hok ⊢
              cases hp1 : f.putState id j1 with
              | some e => simp [hp1] at hok
              | none =>
                cases hp2 : f.putState newOwnerId j2 with
                | some e => simp [hp1, hp2] at hok
                | none =>
                  exact ⟨v, a, j1, j2, rfl, hd, Nat.le_of_not_lt hlt, hm1, hm2, by simp [hp1, hp2]⟩

theorem TransferAsset_of_value (c : Codec) (hc : c.Lawful) (f : Faults) (s : Stub)
    (id newOwnerId : String) (amount : Nat) (v : String) (a : Asset)
    (hget : GetState f s id = .ok (some v)) (hdec : c.Unmarshal v = .ok a)
    (hle : amount ≤ a.Count)
    (hput1 : ∀ value, f.putState id value = none)
    (hput2 : ∀ value, f.putState newOwnerId value = none) :
    ∃ j1 j2, c.Unmarshal j1 = .ok ⟨a.ID, a.Name, a.Count - amount, a.OwnerId⟩ ∧
      c.Unmarshal j2 = .ok ⟨a.Name ++ "-" ++ newOwnerId, id, amount, newOwnerId⟩ ∧
      TransferAsset c f s id newOwnerId amount =
        (.ok (), ⟨store newOwnerId j2 (store id j1 s.world),
          s.log ++ [(id, some j1)] ++ [(newOwnerId, some j2)]⟩) := by
  have hr := hc.2 v a hdec
  have hsub := subUint64_of_le a.Count amount hr hle
  obtain ⟨j1, hm1, hu1⟩ := hc.1 ⟨a.ID, a.Name, a.Count - amount, a.OwnerId⟩
    (show a.Count - amount < uint64Size by omega)
  obtain ⟨j2, hm2, hu2⟩ := hc.1 ⟨a.Name ++ "-" ++ newOwnerId, id, amount, newOwnerId⟩
    (show amount < uint64Size by omega)
  refine ⟨j1, j2, hu1, hu2, ?_⟩
  simp [TransferAsset, ReadAsset, hget, hdec, Nat.not_lt.2 hle, hsub, hm1, hm2, PutState,
    hput1 j1, hput2 j2]

/-- The source record after a transfer to a key other than the source key. -/
theorem TransferAsset_source (c : Codec) (hc : c.Lawful) (f : Faults) (s : Stub)
    (id newOwnerId : String) (amount : Nat) (v : String) (a : Asset)
    (hget : GetState f s id = .ok (some v)) (hdec : c.Unmarshal v = .ok a)
    (hle : amount ≤ a.Count)
    (hput1 : ∀ value, f.putState id value = none)
    (hput2 : ∀ value, f.putState newOwnerId value = none)
    (hne : newOwnerId ≠ id) :
    (TransferAsset c f s id newOwnerId amount).1 = .ok () ∧
    (ReadAsset c f (TransferAsset c f s id newOwnerId amount).2 id).1 =
      .ok ⟨a.ID, a.Name, a.Count - amount, a.OwnerId⟩ := by
  obtain ⟨j1, j2, hu1, hu2, ht⟩ :=
    TransferAsset_of_value c hc f s id newOwnerId amount v a hget hdec hle hput1 hput2
  have hfg : f.getState id = none := by
    unfold GetState at hget
    cases h : f.getState id with
    | none => rfl
    | some e => simp [h] at hget
  rw [ht]
  refine ⟨rfl, ?_⟩
  have hg : GetState f ⟨store newOwnerId j2 (store id j1 s.world),
      s.log ++ [(id, some j1)] ++ [(newOwnerId, some j2)]⟩ id = .ok (some j1) := by
    simp [GetState, hfg, lookup_store_other _ _ _ (Ne.symm hne), lookup_store_same]
  rw [ReadAsset_of_value c f _ id j1 _ hg hu1]

/-- The record a transfer stores under the key `newOwnerId`. -/
theorem TransferAsset_target (c : Codec) (hc : c.Lawful) (f : Faults) (s : Stub)
    (id newOwnerId : String) (amount : Nat) (v : String) (a : Asset)
    (hget : GetState f s id = .ok (some v)) (hdec : c.Unmarshal v = .ok a)
    (hle : amount ≤ a.Count)
    (hput1 : ∀ value, f.putState id value = none)
    (hput2 : ∀ value, f.putState newOwnerId value = none)
    (hgetNew : f.getState newOwnerId = none) :
    (ReadAsset c f (TransferAsset c f s id newOwnerId amount).2 newOwnerId).1 =
      .ok ⟨a.Name ++ "-" ++ newOwnerId, id, amount, newOwnerId⟩ := by
  obtain ⟨j1, j2, hu1, hu2, ht⟩ :=
    TransferAsset_of_value c hc f s id newOwnerId amount v a hget hdec hle hput1 hput2
  rw [ht]
  have hg : GetState f ⟨store newOwnerId j2 (store id j1 s.world),
      s.log ++ [(id, some j1)] ++ [(newOwnerId, some j2)]⟩ newOwnerId = .ok (some j2) := by
    simp [GetState, hgetNew, lookup_store_same]
  rw [ReadAsset_of_value c f _ newOwnerId j2 _ hg hu2]

/-! ### Conservation -/

theorem sum_store_fresh (g : String → Nat) (key value : String) (l : List (String × String))
    (h : lookup key l = none) :
    ((store key value l).map (fun kv => g kv.2)).sum = (l.map (fun kv => g kv.2)).sum + g value := by
  induction l with
  | nil => simp [store]
  | cons kv rest ih =>
    obtain ⟨k, v⟩ := kv
    unfold lookup at h
    split at h
    · simp at h
    · rename_i hne
      unfold store
      split
      · simp only [List.map_cons, List.sum_cons]
        omega
      · simp only [hne, if_false, List.map_cons, List.sum_cons, ih h]
        omega

theorem sum_store_live (g : String → Nat) (key value old : String) (l : List (String × String))
    (hasc : Ascending l) (h : lookup key l = some old) :
    ((store key value l).map (fun kv => g kv.2)).sum + g old =
      (l.map (fun kv => g kv.2)).sum + g value := by
  induction l with
  | nil => simp [lookup] at h
  | cons kv rest ih =>
    obtain ⟨k, v⟩ := kv
    unfold Ascending at hasc
    rw [List.pairwise_cons] at hasc
    obtain ⟨hhead, htail⟩ := hasc
    unfold lookup at h
    split at h
    · rename_i heq
      subst heq
      simp only [Option.some.injEq] at h
      subst h
      simp only [store, keyLt_irrefl, if_true, List.map_cons, List.sum_cons]
      simp
      omega
    · rename_i hne
      have hmem := mem_of_lookup rest key old h
      have hlt := hhead _ hmem
      have hnlt : keyLt key.data k.data = false := by
        cases hk : keyLt key.data k.data with
        | false => rfl
        | true =>
          have := keyLt_trans _ _ _ hk hlt
          rw [keyLt_irrefl] at this
          cases this
      have := ih htail h
      simp only [store, hnlt, hne, if_false, List.map_cons, List.sum_cons]
      simp
      omega

/-- C4, as amended: in a world state with ascending keys, a successful
`TransferAsset(id, newOwnerId, amount)` that stores the new record under a key
holding no live record before the call leaves the sum of the counts of all live
records unchanged (a value that does not unmarshal counting for nothing, so that
this covers the world states in which every stored value unmarshals). -/
theorem TransferAsset_totalCount (c : Codec) (hc : c.Lawful) (f : Faults) (s : Stub)
    (id newOwnerId : String) (amount : Nat)
    (hasc : Ascending s.world)
    (hok : (TransferAsset c f s id newOwnerId amount).1 = .ok ())
    (hfresh : lookup newOwnerId s.world = none) :
    totalCount c (TransferAsset c f s id newOwnerId amount).2 = totalCount c s := by
  obtain ⟨v, a, j1, j2, hget, hdec, hle, hm1, hm2, hst⟩ :=
    TransferAsset_ok_inv c f s id newOwnerId amount hok
  have hr := hc.2 v a hdec
  have hsub := subUint64_of_le a.Count amount hr hle
  rw [hsub] at hm1
  obtain ⟨b1, hb1, hu1⟩ := hc.1 ⟨a.ID, a.Name, a.Count - amount, a.OwnerId⟩
    (show a.Count - amount < uint64Size by omega)
  obtain ⟨b2, hb2, hu2⟩ := hc.1 ⟨a.Name ++ "-" ++ newOwnerId, id, amount, newOwnerId⟩
    (show amount < uint64Size by omega)
  rw [hm1] at hb1
  rw [hm2] at hb2
  cases hb1
  cases hb2
  have hlook : lookup id s.world = some v := by
    unfold GetState at hget
    cases hf : f.getState id with
    | some e => simp [hf] at hget
    | none => simpa [hf] using hget
  have hne : newOwnerId ≠ id := by
    intro e
    rw [e, hlook] at hfresh
    cases hfresh
  have h1 := sum_store_live (countOf c) id j1 v s.world hasc hlook
  have h2 := sum_store_fresh (countOf c) newOwnerId j2 (store id j1 s.world)
    (by rw [lookup_store_other _ _ _ hne]; exact hfresh)
  have hc0 : countOf c v = a.Count := by simp [countOf, hdec]
  have hc1 : countOf c j1 = a.Count - amount := by simp [countOf, hu1]
  have hc2 : countOf c j2 = amount := by simp [countOf, hu2]
  rw [hst]
  unfold totalCount
  simp only
  rw [h2, hc2]
  rw [hc0, hc1] at h1
  omega

theorem ledgerWidget_world : ledgerWidget.world =
    [("widget-0", "\x7b\"ID\":\"widget-0\",\"name\":\"widget\",\"count\":100,\"ownerId\":\"0\"\x7d")] := by
  decide

theorem ledgerAlice_world : ledgerAlice.world =
    [("alice", "\x7b\"ID\":\"widget-alice\",\"name\":\"widget-0\",\"count\":30,\"ownerId\":\"alice\"\x7d"),
     ("widget-0", "\x7b\"ID\":\"widget-0\",\"name\":\"widget\",\"count\":70,\"ownerId\":\"0\"\x7d")] := by
  decide

theorem ledgerAlice_unmarshals :
    ∀ kv ∈ ledgerAlice.world, ∃ a, jsonCodec.Unmarshal kv.2 = .ok a := by
  rw [ledgerAlice_world]
  intro kv hkv
  simp only [List.mem_cons, List.mem_singleton, List.not_mem_nil, or_false] at hkv
  rcases hkv with rfl | rfl
  · exact ⟨_, rfl⟩
  · exact ⟨_, rfl⟩

theorem TransferAsset_totalCount_witness :
    totalCount jsonCodec (TransferAsset jsonCodec noFaults ledgerWidget "widget-0" "alice" 30).2 =
      totalCount jsonCodec ledgerWidget :=
  TransferAsset_totalCount jsonCodec jsonCodec_lawful noFaults ledgerWidget "widget-0" "alice" 30
    (by unfold Ascending; decide) rfl (by decide)

/-- C4 fails as stated: on the ledger left by `InitLedger("widget", 100)` and
`TransferAsset("widget-0", "alice", 30)`, whose keys ascend and whose two values
unmarshal, `TransferAsset("widget-0", "alice", 20)` succeeds and takes the sum of the
counts from 100 to 70: the record of count 30 under the receiving key is replaced by
one of count 20. -/
theorem TransferAsset_totalCount_counterexample :
    Ascending ledgerAlice.world ∧
    (∀ kv ∈ ledgerAlice.world, ∃ a, jsonCodec.Unmarshal kv.2 = .ok a) ∧
    (TransferAsset jsonCodec noFaults ledgerAlice "widget-0" "alice" 20).1 = .ok () ∧
    totalCount jsonCodec ledgerAlice = 100 ∧
    totalCount jsonCodec (TransferAsset jsonCodec noFaults ledgerAlice "widget-0" "alice" 20).2 = 70 ∧
    totalCount jsonCodec (TransferAsset jsonCodec noFaults ledgerAlice "widget-0" "alice" 20).2 ≠
      totalCount jsonCodec ledgerAlice :=
  ⟨by unfold Ascending; decide, ledgerAlice_unmarshals, rfl, by decide, by decide, by decide⟩

/-! ### Enumeration -/

theorem GetAllAssets_loop_ok (c : Codec) (l : List (String × String))
    (hall : ∀ kv ∈ l, ∃ a, c.Unmarshal kv.2 = .ok a) (acc : List Asset) :
    ∃ assets, GetAllAssets.loop c (l.map .ok) acc = (.ok (acc ++ assets), []) ∧
      List.Forall₂ (fun kv a => c.Unmarshal kv.2 = .ok a) l assets := by
  induction l generalizing acc with
  | nil => exact ⟨[], by simp [GetAllAssets.loop], List.Forall₂.nil⟩
  | cons kv rest ih =>
    obtain ⟨a, ha⟩ := hall kv (List.mem_cons_self _ _)
    obtain ⟨assets, hl, hf⟩ := ih (fun q hq => hall q (List.mem_cons_of_mem _ hq)) (acc ++ [a])
    refine ⟨a :: assets, ?_, List.Forall₂.cons ha hf⟩
    simp [GetAllAssets.loop, ha, hl]

theorem GetAllAssets_loop_error (c : Codec) (f : Faults) (l : List (String × String))
    (hbad : ∃ kv ∈ l, ∀ a, c.Unmarshal kv.2 ≠ .ok a) (acc : List Asset) :
    ∃ e, (GetAllAssets.loop c (l.map (fun kv => match f.next kv.1 with
        | some e => .error e
        | none => .ok kv)) acc).1 = .error e := by
  induction l generalizing acc with
  | nil =>
    obtain ⟨kv, hkv, -⟩ := hbad
    simp at hkv
  | cons kv rest ih =>
    simp only [List.map_cons]
    cases hn : f.next kv.1 with
    | some e => exact ⟨.stub e, by simp [GetAllAssets.loop]⟩
    | none =>
      cases hu : c.Unmarshal kv.2 with
      | error e => exact ⟨.json e, by simp [GetAllAssets.loop, hu]⟩
      | ok a =>
        simp only [GetAllAssets.loop, hu]
        apply ih
        obtain ⟨q, hq, hqbad⟩ := hbad
        rcases List.mem_cons.1 hq with rfl | hq
        · exact absurd hu (hqbad a)
        · exact ⟨q, hq, hqbad⟩

/-- The loop of `GetAllAssets` written with the calls of the Go loop: while
`HasNext()`, call `Next()`, return its error if any, unmarshal the value, return
that error if any, append the asset. -/
theorem GetAllAssets_loop_step (c : Codec) (it : StateQueryIterator) (assets : List Asset) :
    GetAllAssets.loop c it.pending assets =
      if it.HasNext then
        match it.Next with
        | (.error e, it2) => (.error (.stub e), it2.pending)
        | (.ok queryResponse, it2) =>
          match c.Unmarshal queryResponse.2 with
          | .error e => (.error (.json e), it2.pending)
          | .ok asset => GetAllAssets.loop c it2.pending (assets ++ [asset])
      else (.ok assets, []) := by
  obtain ⟨pending, closed⟩ := it
  cases pending with
  | nil => simp [GetAllAssets.loop, StateQueryIterator.HasNext]
  | cons r rest =>
    cases r with
    | error e => simp [GetAllAssets.loop, StateQueryIterator.HasNext, StateQueryIterator.Next]
    | ok q =>
      simp only [GetAllAssets.loop, StateQueryIterator.HasNext, StateQueryIterator.Next]
      simp

theorem forall₂_of_mem {α β : Type} (P Q : α → β → Prop) (l : List α) (m : List β)
    (h : List.Forall₂ P l m) (himp : ∀ x ∈ l, ∀ y, P x y → Q x y) : List.Forall₂ Q l m := by
  induction h with
  | nil => exact List.Forall₂.nil
  | cons hd _ ih =>
    exact List.Forall₂.cons (himp _ (List.mem_cons_self _ _) _ hd)
      (ih (fun x hx y hxy => himp x (List.mem_cons_of_mem _ hx) y hxy))

theorem filter_inRange_all (l : List (String × String)) :
    l.filter (fun kv => inRange "" "" kv.1) = l := by
  apply List.filter_eq_self.2
  intro kv _
  simp [inRange]

/-- C10: in a world state with ascending keys, (1) if the range scan and its cursor
do not fail and every stored value unmarshals, `GetAllAssets` returns a list that is,
position by position, the unmarshalled value of a list of keys that is strictly
ascending and consists of exactly the live keys, so every live key contributes once
and the list is as long as there are live keys; (2) if some stored value does not
unmarshal, `GetAllAssets` returns an error, and with it no list. -/
theorem GetAllAssets_cases (c : Codec) (f : Faults) (s : Stub) (hasc : Ascending s.world) :
    (f.getStateByRange = none → (∀ key, f.next key = none) →
      (∀ key v, lookup key s.world = some v → ∃ a, c.Unmarshal v = .ok a) →
      ∃ keys assets, (GetAllAssets c f s).1 = .ok assets ∧
        keys.Pairwise (fun k1 k2 => keyLt k1.data k2.data = true) ∧
        (∀ key, key ∈ keys ↔ ∃ v, lookup key s.world = some v) ∧
        assets.length = keys.length ∧
        List.Forall₂ (fun key a => ∃ v, lookup key s.world = some v ∧ c.Unmarshal v = .ok a)
          keys assets) ∧
    ((∃ key v, lookup key s.world = some v ∧ ∀ a, c.Unmarshal v ≠ .ok a) →
      ∃ e, (GetAllAssets c f s).1 = .error e) := by
  constructor
  · intro hrange hnext hall
    have hall2 : ∀ kv ∈ s.world, ∃ a, c.Unmarshal kv.2 = .ok a := fun kv hkv =>
      hall kv.1 kv.2 (lookup_of_mem _ hasc _ _ hkv)
    obtain ⟨assets, hl, hf⟩ := GetAllAssets_loop_ok c s.world hall2 []
    have hf2 : List.Forall₂
        (fun key a => ∃ v, lookup key s.world = some v ∧ c.Unmarshal v = .ok a)
        (s.world.map Prod.fst) assets := by
      rw [List.forall₂_map_left_iff]
      exact forall₂_of_mem _ _ _ _ hf
        (fun kv hkv a ha => ⟨kv.2, lookup_of_mem _ hasc _ _ hkv, ha⟩)
    refine ⟨s.world.map Prod.fst, assets, ?_, ?_, ?_, ?_, hf2⟩
    · simp [GetAllAssets, GetStateByRange, hrange, hnext, filter_inRange_all, hl]
    · unfold Ascending at hasc
      rw [List.pairwise_map]
      exact hasc
    · intro key
      constructor
      · intro hk
        obtain ⟨kv, hkv, rfl⟩ := List.mem_map.1 hk
        exact ⟨kv.2, lookup_of_mem _ hasc _ _ hkv⟩
      · rintro ⟨v, hv⟩
        exact List.mem_map.2 ⟨(key, v), mem_of_lookup _ _ _ hv, rfl⟩
    · have := hf2.length_eq
      simpa using this.symm
  · rintro ⟨key, v, hv, hbad⟩
    unfold GetAllAssets GetStateByRange
    cases hr : f.getStateByRange with
    | some e => exact ⟨_, rfl⟩
    | none =>
      simp only [filter_inRange_all]
      exact GetAllAssets_loop_error c f s.world ⟨(key, v), mem_of_lookup _ _ _ hv, hbad⟩ []

/-! ### The invariant of the world state -/

theorem PutState_ascending (f : Faults) (s : Stub) (key value : String)
    (h : Ascending s.world) : Ascending (PutState f s key value).2.world := by
  unfold PutState
  cases f.putState key value with
  | some e => exact h
  | none => exact (Ascending_store key value s.world h).1

theorem InitLedger_ascending (c : Codec) (f : Faults) (s : Stub) (id : String) (count : Nat)
    (h : Ascending s.world) : Ascending (InitLedger c f s id count).2.world := by
  have hp : ∀ v, Ascending (PutState f s (id ++ "-0") v).2.world :=
    fun v => PutState_ascending f s _ v h
  simp only [InitLedger]
  split
  · exact h
  · rename_i v _
    have := hp v
    split
    · rename_i heq
      rw [heq] at this
      exact this
    · rename_i heq
      rw [heq] at this
      exact this

theorem DeleteAsset_ascending (f : Faults) (s : Stub) (id : String)
    (h : Ascending s.world) : Ascending (DeleteAsset f s id).2.world := by
  simp only [DeleteAsset, AssetExists, DelState]
  cases hg : GetState f s id with
  | error e => exact h
  | ok o =>
    cases o with
    | none => exact h
    | some v =>
      simp only [Option.isSome_some]
      cases hd : f.delState id with
      | some e => exact h
      | none => exact (Ascending_remove id s.world h).1

theorem TransferAsset_ascending (c : Codec) (f : Faults) (s : Stub) (id newOwnerId : String)
    (amount : Nat) (h : Ascending s.world) :
    Ascending (TransferAsset c f s id newOwnerId amount).2.world := by
  have hs1 := ReadAsset_stub c f s id
  rcases hr : ReadAsset c f s id with ⟨r, s1⟩
  rw [hr] at hs1
  simp only at hs1
  subst hs1
  simp only [TransferAsset, hr]
  cases r with
  | error e => exact h
  | ok a =>
    simp only
    split
    · exact h
    · split
      · exact h
      · split
        · exact h
        · rename_i _ j1 _ _ j2 _
          have h2 := PutState_ascending f s1 id j1 h
          rcases hp1 : PutState f s1 id j1 with ⟨r1, s2⟩
          rw [hp1] at h2
          cases r1 with
          | error e => exact h2
          | ok u =>
            have h3 := PutState_ascending f s2 newOwnerId j2 h2
            show Ascending (match PutState f s2 newOwnerId j2 with
              | (.error e, s3) => ((.error (.stub e) : Except Error Unit), s3)
              | (.ok _, s3) => (.ok (), s3)).2.world
            rcases hp2 : PutState f s2 newOwnerId j2 with ⟨r2, s3⟩
            rw [hp2] at h3
            cases r2 with
            | error e => exact h3
            | ok u2 => exact h3

/-! ### The operations on example ledgers -/

theorem TransferAsset_insufficient_witness :
    TransferAsset jsonCodec noFaults ledgerWidget "widget-0" "alice" 101 =
      (.error .notEnough, ledgerWidget) ∧
    (ReadAsset jsonCodec noFaults
      (TransferAsset jsonCodec noFaults ledgerWidget "widget-0" "alice" 101).2 "widget-0").1 =
        .ok ⟨"widget-0", "widget", 100, "0"⟩ ∧
    ∀ key, GetState noFaults
      (TransferAsset jsonCodec noFaults ledgerWidget "widget-0" "alice" 101).2 key =
        GetState noFaults ledgerWidget key :=
  TransferAsset_insufficient jsonCodec noFaults ledgerWidget "widget-0" "alice" 101
    "\x7b\"ID\":\"widget-0\",\"name\":\"widget\",\"count\":100,\"ownerId\":\"0\"\x7d"
    ⟨"widget-0", "widget", 100, "0"⟩ rfl rfl (by decide)

theorem ReadAsset_cases_witness :
    (ReadAsset jsonCodec noFaults ledgerWidget "widget-0").1 =
      .ok ⟨"widget-0", "widget", 100, "0"⟩ ∧
    (ReadAsset jsonCodec noFaults ledgerWidget "widget-1").1 = .error (.notExist "widget-1") :=
  ⟨(ReadAsset_cases jsonCodec noFaults ledgerWidget "widget-0").2.2.1
      "\x7b\"ID\":\"widget-0\",\"name\":\"widget\",\"count\":100,\"ownerId\":\"0\"\x7d"
      ⟨"widget-0", "widget", 100, "0"⟩ rfl rfl,
    (ReadAsset_cases jsonCodec noFaults ledgerWidget "widget-1").1.2 rfl⟩

theorem DeleteAsset_cases_witness :
    (DeleteAsset noFaults ledgerWidget "widget-0").1 = .ok () ∧
    (AssetExists noFaults (DeleteAsset noFaults ledgerWidget "widget-0").2 "widget-0").1 =
      .ok false ∧
    ∀ key, key ≠ "widget-0" →
      GetState noFaults (DeleteAsset noFaults ledgerWidget "widget-0").2 key =
        GetState noFaults ledgerWidget key :=
  (DeleteAsset_cases noFaults ledgerWidget "widget-0").2.2 rfl rfl

theorem GetAllAssets_cases_witness :
    ∃ keys assets, (GetAllAssets jsonCodec noFaults ledgerAlice).1 = .ok assets ∧
      keys.Pairwise (fun k1 k2 => keyLt k1.data k2.data = true) ∧
      (∀ key, key ∈ keys ↔ ∃ v, lookup key ledgerAlice.world = some v) ∧
      assets.length = keys.length ∧
      List.Forall₂
        (fun key a => ∃ v, lookup key ledgerAlice.world = some v ∧ jsonCodec.Unmarshal v = .ok a)
        keys assets :=
  (GetAllAssets_cases jsonCodec noFaults ledgerAlice (by unfold Ascending; decide)).1 rfl
    (fun _ => rfl)
    (fun key v h => ledgerAlice_unmarshals (key, v) (mem_of_lookup _ _ _ h))

/-- C1 at a failing input: on the ledger left by `InitLedger("widget", 100)`, where
`ReadAsset("widget-0")` returns count 100, `TransferAsset("widget-0", "widget-0", 30)`
succeeds, and afterwards `ReadAsset("widget-0")` returns the record built for the
receiver, with count 30, ID "widget-widget-0", name "widget-0" and owner "widget-0",
not the source record with count 70. -/
theorem TransferAsset_to_source_key :
    (ReadAsset jsonCodec noFaults ledgerWidget "widget-0").1 =
      .ok ⟨"widget-0", "widget", 100, "0"⟩ ∧
    (TransferAsset jsonCodec noFaults ledgerWidget "widget-0" "widget-0" 30).1 = .ok () ∧
    (ReadAsset jsonCodec noFaults
      (TransferAsset jsonCodec noFaults ledgerWidget "widget-0" "widget-0" 30).2 "widget-0").1 =
        .ok ⟨"widget-widget-0", "widget-0", 30, "widget-0"⟩ :=
  ⟨rfl, rfl, rfl⟩

/-- C2 at its own scenario: after `InitLedger("widget", 100)` and
`TransferAsset("widget-0", "alice", 30)`, both of which succeed,
`ReadAsset("widget-alice")` fails with "the asset widget-alice does not exist"; the
record with ID "widget-alice", count 30 and owner "alice" is stored under the key
"alice", and `ReadAsset("widget-0")` returns count 70 and owner "0". -/
theorem TransferAsset_scenario :
    (InitLedger jsonCodec noFaults Stub.empty "widget" 100).1 = .ok () ∧
    (TransferAsset jsonCodec noFaults ledgerWidget "widget-0" "alice" 30).1 = .ok () ∧
    (ReadAsset jsonCodec noFaults ledgerAlice "widget-alice").1 =
      .error (.notExist "widget-alice") ∧
    (ReadAsset jsonCodec noFaults ledgerAlice "alice").1 =
      .ok ⟨"widget-alice", "widget-0", 30, "alice"⟩ ∧
    (ReadAsset jsonCodec noFaults ledgerAlice "widget-0").1 =
      .ok ⟨"widget-0", "widget", 70, "0"⟩ :=
  ⟨rfl, rfl, rfl, rfl, rfl⟩

/-- C6 at a failing input: on the ledger holding the assets "a-0" (name "a") and
"b-0" (name "b") of count 10, `TransferAsset("a-0", "alice", 3)` and then
`TransferAsset("b-0", "alice", 4)` both succeed, and afterwards the ledger holds
three records: the two sources and, under the key "alice", the record of the second
transfer. No record with name "a-0" and count 3 is left. -/
theorem TransferAsset_same_owner_two_assets :
    (TransferAsset jsonCodec noFaults ledgerTwo "a-0" "alice" 3).1 = .ok () ∧
    (TransferAsset jsonCodec noFaults
      (TransferAsset jsonCodec noFaults ledgerTwo "a-0" "alice" 3).2 "b-0" "alice" 4).1 = .ok () ∧
    (ReadAsset jsonCodec noFaults
      (TransferAsset jsonCodec noFaults ledgerTwo "a-0" "alice" 3).2 "alice").1 =
        .ok ⟨"a-alice", "a-0", 3, "alice"⟩ ∧
    ledgerTwoTransferred.world.map Prod.fst = ["a-0", "alice", "b-0"] ∧
    (GetAllAssets jsonCodec noFaults ledgerTwoTransferred).1 =
      .ok [⟨"a-0", "a", 7, "0"⟩, ⟨"b-alice", "b-0", 4, "alice"⟩, ⟨"b-0", "b", 6, "0"⟩] :=
  ⟨rfl, rfl, rfl, by decide, rfl⟩

/-! ### Overwriting -/

theorem store_store (key v1 v2 : String) (l : List (String × String)) :
    store key v2 (store key v1 l) = store key v2 l := by
  induction l with
  | nil => simp [store, keyLt_irrefl]
  | cons kv rest ih =>
    obtain ⟨k, v⟩ := kv
    by_cases hlt : keyLt key.data k.data = true
    · simp [store, hlt, keyLt_irrefl]
    · by_cases hk : k = key
      · simp [store, hlt, hk, keyLt_irrefl]
      · simp [store, hlt, hk, ih]

theorem InitLedger_eq (c : Codec) (f : Faults) (s : Stub) (id : String) (count : Nat)
    (v : String) (hm : c.Marshal ⟨id ++ "-0", id, count, "0"⟩ = .ok v)
    (hput : f.putState (id ++ "-0") v = none) :
    InitLedger c f s id count =
      (.ok (), ⟨store (id ++ "-0") v s.world, s.log ++ [(id ++ "-0", some v)]⟩) := by
  simp [InitLedger, hm, PutState, hput]

/-- C12: when the stub accepts the put, `InitLedger(id, c1)` followed by
`InitLedger(id, c2)` succeeds both times, whatever is stored already (there is no
existence check), and leaves the same current world state as `InitLedger(id, c2)`
alone; in particular running `InitLedger(id, c2)` twice leaves the same world
state as running it once. -/
theorem InitLedger_overwrite (c : Codec) (hc : c.Lawful) (f : Faults) (s : Stub) (id : String)
    (c1 c2 : Nat) (h1 : c1 < uint64Size) (h2 : c2 < uint64Size)
    (hput : ∀ value, f.putState (id ++ "-0") value = none) :
    (InitLedger c f s id c1).1 = .ok () ∧
    (InitLedger c f (InitLedger c f s id c1).2 id c2).1 = .ok () ∧
    (InitLedger c f (InitLedger c f s id c1).2 id c2).2.world =
      (InitLedger c f s id c2).2.world ∧
    (InitLedger c f (InitLedger c f s id c2).2 id c2).2.world =
      (InitLedger c f s id c2).2.world := by
  obtain ⟨v1, hm1, -⟩ := hc.1 ⟨id ++ "-0", id, c1, "0"⟩ h1
  obtain ⟨v2, hm2, -⟩ := hc.1 ⟨id ++ "-0", id, c2, "0"⟩ h2
  rw [InitLedger_eq c f s id c1 v1 hm1 (hput v1), InitLedger_eq c f s id c2 v2 hm2 (hput v2),
    InitLedger_eq c f _ id c2 v2 hm2 (hput v2), InitLedger_eq c f _ id c2 v2 hm2 (hput v2)]
  simp [store_store]

theorem InitLedger_overwrite_witness :
    (InitLedger jsonCodec noFaults ledgerAlice "widget" 5).1 = .ok () ∧
    (InitLedger jsonCodec noFaults (InitLedger jsonCodec noFaults ledgerAlice "widget" 5).2
      "widget" 8).1 = .ok () ∧
    (InitLedger jsonCodec noFaults (InitLedger jsonCodec noFaults ledgerAlice "widget" 5).2
      "widget" 8).2.world = (InitLedger jsonCodec noFaults ledgerAlice "widget" 8).2.world ∧
    (InitLedger jsonCodec noFaults (InitLedger jsonCodec noFaults ledgerAlice "widget" 8).2
      "widget" 8).2.world = (InitLedger jsonCodec noFaults ledgerAlice "widget" 8).2.world :=
  InitLedger_overwrite jsonCodec jsonCodec_lawful noFaults ledgerAlice "widget" 5 8
    (by decide) (by decide) (fun _ => rfl)

/-! ### What a transfer writes -/

/-- C13: a successful `TransferAsset(id, newOwnerId, amount)` whose source record
unmarshals to an asset of name `N` issues two puts, and the value of the second,
the new record, is the marshalled asset with ID `N + "-" + newOwnerId`, name `id`,
count `amount` and owner `newOwnerId`, and unmarshals to exactly that asset. -/
theorem TransferAsset_new_record (c : Codec) (hc : c.Lawful) (f : Faults) (s : Stub)
    (id newOwnerId : String) (amount : Nat)
    (hok : (TransferAsset c f s id newOwnerId amount).1 = .ok ()) :
    ∃ v a j1 j2, GetState f s id = .ok (some v) ∧ c.Unmarshal v = .ok a ∧
      (TransferAsset c f s id newOwnerId amount).2.log =
        s.log ++ [(id, some j1), (newOwnerId, some j2)] ∧
      c.Marshal ⟨a.Name ++ "-" ++ newOwnerId, id, amount, newOwnerId⟩ = .ok j2 ∧
      c.Unmarshal j2 = .ok ⟨a.Name ++ "-" ++ newOwnerId, id, amount, newOwnerId⟩ := by
  obtain ⟨v, a, j1, j2, hget, hdec, hle, hm1, hm2, hst⟩ :=
    TransferAsset_ok_inv c f s id newOwnerId amount hok
  have hr := hc.2 v a hdec
  obtain ⟨b2, hb2, hu2⟩ := hc.1 ⟨a.Name ++ "-" ++ newOwnerId, id, amount, newOwnerId⟩
    (show amount < uint64Size by omega)
  rw [hm2] at hb2
  cases hb2
  exact ⟨v, a, j1, j2, hget, hdec, by simp [hst], hm2, hu2⟩

theorem TransferAsset_new_record_witness :
    ∃ v a j1 j2, GetState noFaults ledgerWidget "widget-0" = .ok (some v) ∧
      jsonCodec.Unmarshal v = .ok a ∧
      (TransferAsset jsonCodec noFaults ledgerWidget "widget-0" "alice" 30).2.log =
        ledgerWidget.log ++ [("widget-0", some j1), ("alice", some j2)] ∧
      jsonCodec.Marshal ⟨a.Name ++ "-" ++ "alice", "widget-0", 30, "alice"⟩ = .ok j2 ∧
      jsonCodec.Unmarshal j2 = .ok ⟨a.Name ++ "-" ++ "alice", "widget-0", 30, "alice"⟩ :=
  TransferAsset_new_record jsonCodec jsonCodec_lawful noFaults ledgerWidget "widget-0" "alice" 30
    rfl

/-- C19: after a successful `TransferAsset(id, newOwnerId, amount)` every key other
than `id` and `newOwnerId` holds what it held before, and the writes issued are
exactly two puts, the first under `id` and the second under `newOwnerId`. -/
theorem TransferAsset_frame (c : Codec) (f : Faults) (s : Stub) (id newOwnerId : String)
    (amount : Nat) (hok : (TransferAsset c f s id newOwnerId amount).1 = .ok ()) :
    (∀ key, key ≠ id → key ≠ newOwnerId →
      GetState f (TransferAsset c f s id newOwnerId amount).2 key = GetState f s key) ∧
    ∃ j1 j2, (TransferAsset c f s id newOwnerId amount).2.log =
      s.log ++ [(id, some j1), (newOwnerId, some j2)] := by
  obtain ⟨v, a, j1, j2, hget, hdec, hle, hm1, hm2, hst⟩ :=
    TransferAsset_ok_inv c f s id newOwnerId amount hok
  rw [hst]
  refine ⟨?_, j1, j2, by simp⟩
  intro key h1 h2
  unfold GetState
  cases f.getState key with
  | some e => rfl
  | none => simp [lookup_store_other _ _ _ h2, lookup_store_other _ _ _ h1]

theorem TransferAsset_frame_witness :
    (∀ key, key ≠ "widget-0" → key ≠ "alice" →
      GetState noFaults (TransferAsset jsonCodec noFaults ledgerWidget "widget-0" "alice" 30).2 key =
        GetState noFaults ledgerWidget key) ∧
    ∃ j1 j2, (TransferAsset jsonCodec noFaults ledgerWidget "widget-0" "alice" 30).2.log =
      ledgerWidget.log ++ [("widget-0", some j1), ("alice", some j2)] :=
  TransferAsset_frame jsonCodec noFaults ledgerWidget "widget-0" "alice" 30 rfl

/-! ### Transfers that meet an existing record -/

theorem getState_none_of_ok (f : Faults) (s : Stub) (key : String) (o : Option String)
    (h : GetState f s key = .ok o) : f.getState key = none := by
  unfold GetState at h
  cases hf : f.getState key with
  | none => rfl
  | some e => simp [hf] at h

/-- C15: for an asset stored under `id` with count `C`, a new owner other than `id`
and amounts with `A1 + A2 <= C`, on a stub that accepts the puts and answers the
gets, `TransferAsset(id, newOwnerId, A1)` and then `TransferAsset(id, newOwnerId,
A2)` both succeed; afterwards the record the transfers stored for the new owner has
count `A2`, the second transfer having replaced the record of count `A1`, and the
source record has count `C - A1 - A2`. -/
theorem TransferAsset_twice (c : Codec) (hc : c.Lawful) (f : Faults) (s : Stub)
    (id newOwnerId : String) (A1 A2 : Nat) (v : String) (a : Asset)
    (hget : GetState f s id = .ok (some v)) (hdec : c.Unmarshal v = .ok a)
    (hle : A1 + A2 ≤ a.Count) (hne : newOwnerId ≠ id)
    (hput1 : ∀ value, f.putState id value = none)
    (hput2 : ∀ value, f.putState newOwnerId value = none)
    (hgetNew : f.getState newOwnerId = none) :
    (TransferAsset c f s id newOwnerId A1).1 = .ok () ∧
    (ReadAsset c f (TransferAsset c f s id newOwnerId A1).2 newOwnerId).1 =
      .ok ⟨a.Name ++ "-" ++ newOwnerId, id, A1, newOwnerId⟩ ∧
    (TransferAsset c f (TransferAsset c f s id newOwnerId A1).2 id newOwnerId A2).1 = .ok () ∧
    (ReadAsset c f
      (TransferAsset c f (TransferAsset c f s id newOwnerId A1).2 id newOwnerId A2).2
      newOwnerId).1 = .ok ⟨a.Name ++ "-" ++ newOwnerId, id, A2, newOwnerId⟩ ∧
    (ReadAsset c f
      (TransferAsset c f (TransferAsset c f s id newOwnerId A1).2 id newOwnerId A2).2
      id).1 = .ok ⟨a.ID, a.Name, a.Count - A1 - A2, a.OwnerId⟩ := by
  have hfg := getState_none_of_ok f s id _ hget
  have ht1 := TransferAsset_target c hc f s id newOwnerId A1 v a hget hdec (by omega)
    hput1 hput2 hgetNew
  obtain ⟨j1, j2, hu1, hu2, ht⟩ :=
    TransferAsset_of_value c hc f s id newOwnerId A1 v a hget hdec (by omega) hput1 hput2
  have hg1 : GetState f (TransferAsset c f s id newOwnerId A1).2 id = .ok (some j1) := by
    rw [ht]
    simp [GetState, hfg, lookup_store_other _ _ _ (Ne.symm hne), lookup_store_same]
  have hle2 : A2 ≤ (⟨a.ID, a.Name, a.Count - A1, a.OwnerId⟩ : Asset).Count := by
    show A2 ≤ a.Count - A1
    omega
  have hs2 := TransferAsset_source c hc f _ id newOwnerId A2 j1 _ hg1 hu1 hle2 hput1 hput2 hne
  have ht2 := TransferAsset_target c hc f _ id newOwnerId A2 j1 _ hg1 hu1 hle2 hput1 hput2 hgetNew
  refine ⟨by rw [ht], ht1, hs2.1, ht2, hs2.2⟩

theorem TransferAsset_twice_witness :
    (TransferAsset jsonCodec noFaults ledgerWidget "widget-0" "alice" 30).1 = .ok () ∧
    (ReadAsset jsonCodec noFaults
      (TransferAsset jsonCodec noFaults ledgerWidget "widget-0" "alice" 30).2 "alice").1 =
      .ok ⟨"widget" ++ "-" ++ "alice", "widget-0", 30, "alice"⟩ ∧
    (TransferAsset jsonCodec noFaults
      (TransferAsset jsonCodec noFaults ledgerWidget "widget-0" "alice" 30).2
      "widget-0" "alice" 20).1 = .ok () ∧
    (ReadAsset jsonCodec noFaults
      (TransferAsset jsonCodec noFaults
        (TransferAsset jsonCodec noFaults ledgerWidget "widget-0" "alice" 30).2
        "widget-0" "alice" 20).2 "alice").1 =
      .ok ⟨"widget" ++ "-" ++ "alice", "widget-0", 20, "alice"⟩ ∧
    (ReadAsset jsonCodec noFaults
      (TransferAsset jsonCodec noFaults
        (TransferAsset jsonCodec noFaults ledgerWidget "widget-0" "alice" 30).2
        "widget-0" "alice" 20).2 "widget-0").1 =
      .ok ⟨"widget-0", "widget", 100 - 30 - 20, "0"⟩ :=
  TransferAsset_twice jsonCodec jsonCodec_lawful noFaults ledgerWidget "widget-0" "alice" 30 20
    "\x7b\"ID\":\"widget-0\",\"name\":\"widget\",\"count\":100,\"ownerId\":\"0\"\x7d"
    ⟨"widget-0", "widget", 100, "0"⟩ rfl rfl (by decide) (by decide) (fun _ => rfl)
    (fun _ => rfl) rfl

/-- C20: for an asset stored under `id` with name `N` and count `C` and an amount
`A <= C`, on a stub that accepts the puts, `TransferAsset(id, id, A)` succeeds; it
puts the decremented source (count `C - A`) under `id` and then the new record under
`id` again, so that afterwards `ReadAsset(id)` returns the asset with ID
`N + "-" + id`, name `id`, count `A` and owner `id`, and, the keys of the world state
ascending, the sum of the counts of all live records has dropped by `C - A`. -/
theorem TransferAsset_self (c : Codec) (hc : c.Lawful) (f : Faults) (s : Stub)
    (id : String) (amount : Nat) (v : String) (a : Asset)
    (hget : GetState f s id = .ok (some v)) (hdec : c.Unmarshal v = .ok a)
    (hle : amount ≤ a.Count)
    (hput : ∀ value, f.putState id value = none)
    (hasc : Ascending s.world) :
    (TransferAsset c f s id id amount).1 = .ok () ∧
    (∃ j1 j2, (TransferAsset c f s id id amount).2.log =
        s.log ++ [(id, some j1), (id, some j2)] ∧
      c.Unmarshal j1 = .ok ⟨a.ID, a.Name, a.Count - amount, a.OwnerId⟩ ∧
      c.Unmarshal j2 = .ok ⟨a.Name ++ "-" ++ id, id, amount, id⟩) ∧
    (ReadAsset c f (TransferAsset c f s id id amount).2 id).1 =
      .ok ⟨a.Name ++ "-" ++ id, id, amount, id⟩ ∧
    totalCount c (TransferAsset c f s id id amount).2 + (a.Count - amount) = totalCount c s := by
  have hfg := getState_none_of_ok f s id _ hget
  have htgt := TransferAsset_target c hc f s id id amount v a hget hdec hle hput hput hfg
  obtain ⟨j1, j2, hu1, hu2, ht⟩ :=
    TransferAsset_of_value c hc f s id id amount v a hget hdec hle hput hput
  have hlook : lookup id s.world = some v := by
    unfold GetState at hget
    simpa [hfg] using hget
  have hsum := sum_store_live (countOf c) id j2 v s.world hasc hlook
  have hc0 : countOf c v = a.Count := by simp [countOf, hdec]
  have hc2 : countOf c j2 = amount := by simp [countOf, hu2]
  refine ⟨by rw [ht], ⟨j1, j2, by simp [ht], hu1, hu2⟩, htgt, ?_⟩
  rw [ht]
  unfold totalCount
  simp only [store_store]
  rw [hc0, hc2] at hsum
  omega

theorem TransferAsset_self_witness :
    (TransferAsset jsonCodec noFaults ledgerWidget "widget-0" "widget-0" 30).1 = .ok () ∧
    (∃ j1 j2, (TransferAsset jsonCodec noFaults ledgerWidget "widget-0" "widget-0" 30).2.log =
        ledgerWidget.log ++ [("widget-0", some j1), ("widget-0", some j2)] ∧
      jsonCodec.Unmarshal j1 = .ok ⟨"widget-0", "widget", 100 - 30, "0"⟩ ∧
      jsonCodec.Unmarshal j2 = .ok ⟨"widget" ++ "-" ++ "widget-0", "widget-0", 30, "widget-0"⟩) ∧
    (ReadAsset jsonCodec noFaults
      (TransferAsset jsonCodec noFaults ledgerWidget "widget-0" "widget-0" 30).2 "widget-0").1 =
      .ok ⟨"widget" ++ "-" ++ "widget-0", "widget-0", 30, "widget-0"⟩ ∧
    totalCount jsonCodec (TransferAsset jsonCodec noFaults ledgerWidget "widget-0" "widget-0" 30).2
      + (100 - 30) = totalCount jsonCodec ledgerWidget :=
  TransferAsset_self jsonCodec jsonCodec_lawful noFaults ledgerWidget "widget-0" 30
    "\x7b\"ID\":\"widget-0\",\"name\":\"widget\",\"count\":100,\"ownerId\":\"0\"\x7d"
    ⟨"widget-0", "widget", 100, "0"⟩ rfl rfl (by decide) (fun _ => rfl)
    (by unfold Ascending; decide)

/-! ### History -/

/-- The loop of `ReadHistory` written with the calls of the Go loop: while
`HasNext()`, call `Next()`, return its error if any, unmarshal the value, return
that error if any, append the asset. -/
theorem ReadHistory_loop_step (c : Codec) (it : HistoryQueryIterator) (assets : List Asset) :
    ReadHistory.loop c it.pending assets =
      if it.HasNext then
        match it.Next with
        | (.error e, it2) => (.error (.stub e), it2.pending)
        | (.ok queryResponse, it2) =>
          match c.Unmarshal queryResponse.Value with
          | .error e => (.error (.json e), it2.pending)
          | .ok asset => ReadHistory.loop c it2.pending (assets ++ [asset])
      else (.ok assets, []) := by
  obtain ⟨pending, closed⟩ := it
  cases pending with
  | nil => simp [ReadHistory.loop, HistoryQueryIterator.HasNext]
  | cons r rest =>
    cases r with
    | error e => simp [ReadHistory.loop, HistoryQueryIterator.HasNext, HistoryQueryIterator.Next]
    | ok q =>
      simp only [ReadHistory.loop, HistoryQueryIterator.HasNext, HistoryQueryIterator.Next]
      simp

theorem historyResults_ok (next : Nat → Option String) (hnext : ∀ i, next i = none)
    (i : Nat) (vs : List String) :
    historyResults next i vs = vs.map (fun v => .ok ⟨v⟩) := by
  induction vs generalizing i with
  | nil => rfl
  | cons v rest ih => simp [historyResults, hnext i, ih]

theorem ReadHistory_loop_ok (c : Codec) (vs : List String)
    (hall : ∀ v ∈ vs, ∃ a, c.Unmarshal v = .ok a) (acc : List Asset) :
    ∃ assets, ReadHistory.loop c (vs.map (fun v => .ok ⟨v⟩)) acc = (.ok (acc ++ assets), []) ∧
      List.Forall₂ (fun v a => c.Unmarshal v = .ok a) vs assets := by
  induction vs generalizing acc with
  | nil => exact ⟨[], by simp [ReadHistory.loop], List.Forall₂.nil⟩
  | cons v rest ih =>
    obtain ⟨a, ha⟩ := hall v (List.mem_cons_self _ _)
    obtain ⟨assets, hl, hf⟩ := ih (fun q hq => hall q (List.mem_cons_of_mem _ hq)) (acc ++ [a])
    refine ⟨a :: assets, ?_, List.Forall₂.cons ha hf⟩
    simp [ReadHistory.loop, ha, hl]

theorem versions_PutState (f : Faults) (s : Stub) (key value : String)
    (hput : f.putState key value = none) :
    versions key (PutState f s key value).2.log = versions key s.log ++ [value] := by
  simp [PutState, hput, versions, List.filterMap_append]

theorem versions_DeleteAsset (f : Faults) (s : Stub) (id key : String) :
    versions key (DeleteAsset f s id).2.log = versions key s.log := by
  simp only [DeleteAsset, AssetExists, DelState]
  cases hg : GetState f s id with
  | error e => rfl
  | ok o =>
    cases o with
    | none => rfl
    | some v =>
      simp only [Option.isSome_some]
      cases hd : f.delState id with
      | some e => rfl
      | none => simp [versions, List.filterMap_append]

theorem DeleteAsset_ok_inv (f : Faults) (s : Stub) (id : String)
    (hdel : (DeleteAsset f s id).1 = .ok ()) :
    f.getState id = none ∧
    (DeleteAsset f s id).2 = ⟨remove id s.world, s.log ++ [(id, none)]⟩ := by
  simp only [DeleteAsset, AssetExists, DelState, GetState] at hdel ⊢
  cases hg : f.getState id with
  | some e => simp [hg] at hdel
  | none =>
    simp only [hg] at hdel ⊢
    cases hl : lookup id s.world with
    | none => simp [hl] at hdel
    | some v =>
      simp only [hl, Option.isSome_some] at hdel ⊢
      cases hd : f.delState id with
      | some e => simp [hd] at hdel
      | none => simp

theorem ReadHistory_of_versions (c : Codec) (h : HistoryFaults) (s : Stub) (id : String)
    (hcall : h.getHistoryForKey id = none) (hnil : h.nilCursor id = false)
    (hnext : ∀ i, h.next id i = none) (assets : List Asset)
    (hloop : ReadHistory.loop c ((versions id s.log).map (fun v => .ok ⟨v⟩)) [] =
      (.ok assets, [])) :
    (ReadHistory c (GetHistoryForKey h s) s id).1 = .ok assets := by
  simp [ReadHistory, GetHistoryForKey, hcall, hnil, historyResults_ok _ hnext, hloop]

/-- C11: on a history that does not fail and in which every value ever put under
`id` unmarshals, `ReadHistory(id)` returns the assets of all values put under `id`,
oldest first, and after a successful `DeleteAsset(id)` it returns the same list
although `AssetExists(id)` is then false. -/
theorem ReadHistory_after_DeleteAsset (c : Codec) (h : HistoryFaults) (f : Faults) (s : Stub)
    (id : String)
    (hcall : h.getHistoryForKey id = none) (hnil : h.nilCursor id = false)
    (hnext : ∀ i, h.next id i = none)
    (hdec : ∀ v ∈ versions id s.log, ∃ a, c.Unmarshal v = .ok a)
    (hdel : (DeleteAsset f s id).1 = .ok ()) :
    ∃ assets, List.Forall₂ (fun v a => c.Unmarshal v = .ok a) (versions id s.log) assets ∧
      (ReadHistory c (GetHistoryForKey h s) s id).1 = .ok assets ∧
      (ReadHistory c (GetHistoryForKey h (DeleteAsset f s id).2) (DeleteAsset f s id).2 id).1 =
        .ok assets ∧
      (AssetExists f (DeleteAsset f s id).2 id).1 = .ok false := by
  obtain ⟨assets, hl, hf⟩ := ReadHistory_loop_ok c (versions id s.log) hdec []
  have hl2 : ReadHistory.loop c ((versions id (DeleteAsset f s id).2.log).map
      (fun v => .ok ⟨v⟩)) [] = (.ok assets, []) := by
    rw [versions_DeleteAsset]
    simpa using hl
  obtain ⟨hfg, hst⟩ := DeleteAsset_ok_inv f s id hdel
  refine ⟨assets, hf, ReadHistory_of_versions c h s id hcall hnil hnext assets (by simpa using hl),
    ReadHistory_of_versions c h _ id hcall hnil hnext assets hl2, ?_⟩
  rw [hst]
  simp [AssetExists, GetState, hfg, lookup_remove_same]

theorem ledgerAlice_versions : versions "widget-0" ledgerAlice.log =
    ["\x7b\"ID\":\"widget-0\",\"name\":\"widget\",\"count\":100,\"ownerId\":\"0\"\x7d",
     "\x7b\"ID\":\"widget-0\",\"name\":\"widget\",\"count\":70,\"ownerId\":\"0\"\x7d"] := by
  decide

theorem ledgerAlice_versions_unmarshal :
    ∀ v ∈ versions "widget-0" ledgerAlice.log, ∃ a, jsonCodec.Unmarshal v = .ok a := by
  rw [ledgerAlice_versions]
  intro v hv
  simp only [List.mem_cons, List.mem_singleton, List.not_mem_nil, or_false] at hv
  rcases hv with rfl | rfl
  · exact ⟨_, rfl⟩
  · exact ⟨_, rfl⟩

theorem ReadHistory_after_DeleteAsset_witness :
    (∃ assets,
      List.Forall₂ (fun v a => jsonCodec.Unmarshal v = .ok a)
        (versions "widget-0" ledgerAlice.log) assets ∧
      (ReadHistory jsonCodec (GetHistoryForKey noHistoryFaults ledgerAlice) ledgerAlice
        "widget-0").1 = .ok assets ∧
      (ReadHistory jsonCodec
        (GetHistoryForKey noHistoryFaults (DeleteAsset noFaults ledgerAlice "widget-0").2)
        (DeleteAsset noFaults ledgerAlice "widget-0").2 "widget-0").1 = .ok assets ∧
      (AssetExists noFaults (DeleteAsset noFaults ledgerAlice "widget-0").2 "widget-0").1 =
        .ok false) ∧
    (ReadHistory jsonCodec (GetHistoryForKey noHistoryFaults ledgerDeleted) ledgerDeleted
      "widget-0").1 = .ok [⟨"widget-0", "widget", 100, "0"⟩, ⟨"widget-0", "widget", 70, "0"⟩] ∧
    (AssetExists noFaults ledgerDeleted "widget-0").1 = .ok false :=
  ⟨ReadHistory_after_DeleteAsset jsonCodec noHistoryFaults noFaults ledgerAlice "widget-0"
      rfl rfl (fun _ => rfl) ledgerAlice_versions_unmarshal rfl, rfl, rfl⟩

theorem ReadHistory_loop_error (c : Codec) (p : List (Except String KeyModification))
    (acc : List Asset) (e : Error) (rest : List (Except String KeyModification))
    (h : ReadHistory.loop c p acc = (.error e, rest)) :
    (∃ msg, .error msg ∈ p ∧ e = .stub msg) ∨
    (∃ km msg, .ok km ∈ p ∧ c.Unmarshal km.Value = .error msg ∧ e = .json msg) := by
  induction p generalizing acc with
  | nil => simp [ReadHistory.loop] at h
  | cons r p ih =>
    cases r with
    | error msg =>
      simp only [ReadHistory.loop, Prod.mk.injEq, Except.error.injEq] at h
      exact Or.inl ⟨msg, List.mem_cons_self _ _, h.1.symm⟩
    | ok km =>
      simp only [ReadHistory.loop] at h
      cases hu : c.Unmarshal km.Value with
      | error msg =>
        simp only [hu, Prod.mk.injEq, Except.error.injEq] at h
        exact Or.inr ⟨km, msg, List.mem_cons_self _ _, hu, h.1.symm⟩
      | ok a =>
        simp only [hu] at h
        rcases ih _ h with ⟨msg, hm, he⟩ | ⟨km2, msg, hm, hu2, he⟩
        · exact Or.inl ⟨msg, List.mem_cons_of_mem _ hm, he⟩
        · exact Or.inr ⟨km2, msg, List.mem_cons_of_mem _ hm, hu2, he⟩

/-- C17: whatever the stub answers to `GetHistoryForKey(id)`: if it answers a cursor
that is not nil and holds no versions, `ReadHistory(id)` succeeds with the empty
list; and if `ReadHistory(id)` fails, then the call reported an error, or it
answered a nil cursor, or a `Next` call of the cursor reported an error, or the
value of a version did not unmarshal. -/
theorem ReadHistory_cases (c : Codec)
    (getHistoryForKey : String → Except String (Option HistoryQueryIterator))
    (s : Stub) (id : String) :
    (∀ closed, getHistoryForKey id = .ok (some ⟨[], closed⟩) →
      (ReadHistory c getHistoryForKey s id).1 = .ok []) ∧
    (∀ e, (ReadHistory c getHistoryForKey s id).1 = .error e →
      (∃ msg, getHistoryForKey id = .error msg ∧ e = .readFailed msg) ∨
      (getHistoryForKey id = .ok none ∧ e = .noHistory) ∨
      (∃ it, getHistoryForKey id = .ok (some it) ∧
        ((∃ msg, .error msg ∈ it.pending ∧ e = .stub msg) ∨
         (∃ km msg, .ok km ∈ it.pending ∧ c.Unmarshal km.Value = .error msg ∧
            e = .json msg)))) := by
  constructor
  · intro closed hg
    simp [ReadHistory, hg, ReadHistory.loop]
  · intro e he
    unfold ReadHistory at he
    cases hg : getHistoryForKey id with
    | error msg =>
      simp only [hg, Except.error.injEq] at he
      exact Or.inl ⟨msg, rfl, he.symm⟩
    | ok o =>
      cases o with
      | none =>
        simp only [hg, Except.error.injEq] at he
        exact Or.inr (Or.inl ⟨rfl, he.symm⟩)
      | some it =>
        simp only [hg] at he
        rcases hl : ReadHistory.loop c it.pending [] with ⟨r, rest⟩
        rw [hl] at he
        cases r with
        | ok assets => simp at he
        | error e2 =>
          simp only [Except.error.injEq] at he
          subst he
          exact Or.inr (Or.inr ⟨it, rfl, ReadHistory_loop_error c _ _ _ _ hl⟩)

theorem ReadHistory_cases_witness :
    (ReadHistory jsonCodec (fun _ => .ok (some ⟨[], false⟩)) Stub.empty "widget-0").1 = .ok [] ∧
    (ReadHistory jsonCodec (GetHistoryForKey noHistoryFaults Stub.empty) Stub.empty
      "widget-0").1 = .ok [] :=
  ⟨(ReadHistory_cases jsonCodec (fun _ => .ok (some ⟨[], false⟩)) Stub.empty "widget-0").1
      false rfl,
    (ReadHistory_cases jsonCodec (GetHistoryForKey noHistoryFaults Stub.empty) Stub.empty
      "widget-0").1 false rfl⟩

/-- A call of `ReadHistory` that succeeds leaves the cursor closed. -/
theorem ReadHistory_ok_closed (c : Codec)
    (getHistoryForKey : String → Except String (Option HistoryQueryIterator))
    (s : Stub) (id : String) (assets : List Asset)
    (h : (ReadHistory c getHistoryForKey s id).1 = .ok assets) :
    ∃ it, (ReadHistory c getHistoryForKey s id).2.2 = some it ∧ it.closed = true := by
  unfold ReadHistory at h ⊢
  cases hg : getHistoryForKey id with
  | error msg => simp [hg] at h
  | ok o =>
    cases o with
    | none => simp [hg] at h
    | some it =>
      simp only [hg] at h ⊢
      rcases hl : ReadHistory.loop c it.pending [] with ⟨r, rest⟩
      rw [hl] at h
      cases r with
      | error e => simp at h
      | ok a => exact ⟨_, rfl, rfl⟩

/-- A call of `ReadHistory` that obtains a cursor and fails leaves the cursor as
open as it got it. -/
theorem ReadHistory_error_open (c : Codec)
    (getHistoryForKey : String → Except String (Option HistoryQueryIterator))
    (s : Stub) (id : String) (it0 : HistoryQueryIterator) (e : Error)
    (hg : getHistoryForKey id = .ok (some it0))
    (h : (ReadHistory c getHistoryForKey s id).1 = .error e) :
    ∃ it, (ReadHistory c getHistoryForKey s id).2.2 = some it ∧ it.closed = it0.closed := by
  unfold ReadHistory at h ⊢
  simp only [hg] at h ⊢
  rcases hl : ReadHistory.loop c it0.pending [] with ⟨r, rest⟩
  rw [hl] at h
  cases r with
  | error e => exact ⟨_, rfl, rfl⟩
  | ok a => simp at h

/-- C16 at two failing inputs: on the ledger left by `InitLedger("widget", 100)` with
a history cursor whose first `Next` fails, and on a ledger whose value under "k" is
not the JSON of an asset, `ReadHistory` returns the error and leaves the cursor open
(`closed = false`); on the second ledger `GetAllAssets`, which defers `Close`,
returns its error with the cursor closed. -/
theorem ReadHistory_leaves_cursor_open :
    ReadHistory jsonCodec (GetHistoryForKey firstNextFails ledgerWidget) ledgerWidget "widget-0" =
      (.error (.stub "stream error"), ledgerWidget, some ⟨[], false⟩) ∧
    ReadHistory jsonCodec (GetHistoryForKey noHistoryFaults ledgerRaw) ledgerRaw "k" =
      (.error (.json "invalid character in asset JSON"), ledgerRaw, some ⟨[], false⟩) ∧
    GetAllAssets jsonCodec noFaults ledgerRaw =
      (.error (.json "invalid character in asset JSON"), ledgerRaw, some ⟨[], true⟩) :=
  ⟨rfl, rfl, rfl⟩

/-! ### Keys and IDs -/

theorem mem_store (key value : String) (l : List (String × String)) (p : String × String)
    (h : p ∈ store key value l) : p ∈ l ∨ p = (key, value) := by
  induction l with
  | nil =>
    simp only [store, List.mem_singleton] at h
    exact Or.inr h
  | cons kv rest ih =>
    obtain ⟨k, v⟩ := kv
    unfold store at h
    split at h
    · rcases List.mem_cons.1 h with rfl | h
      · exact Or.inr rfl
      · exact Or.inl h
    · split at h
      · rcases List.mem_cons.1 h with rfl | h
        · exact Or.inr rfl
        · exact Or.inl (List.mem_cons_of_mem _ h)
      · rcases List.mem_cons.1 h with rfl | h
        · exact Or.inl (List.mem_cons_self _ _)
        · rcases ih h with h | h
          · exact Or.inl (List.mem_cons_of_mem _ h)
          · exact Or.inr h

theorem mem_remove (key : String) (l : List (String × String)) (p : String × String)
    (h : p ∈ remove key l) : p ∈ l := by
  induction l with
  | nil => simp [remove] at h
  | cons kv rest ih =>
    obtain ⟨k, v⟩ := kv
    unfold remove at h
    split at h
    · exact List.mem_cons_of_mem _ (ih h)
    · rcases List.mem_cons.1 h with rfl | h
      · exact List.mem_cons_self _ _
      · exact List.mem_cons_of_mem _ (ih h)

/-- `InitLedger` keeps the agreement of keys and IDs. -/
theorem InitLedger_KeyIdAgree (c : Codec) (hc : c.Lawful) (f : Faults) (s : Stub) (id : String)
    (count : Nat) (hcount : count < uint64Size) (h : KeyIdAgree c s) :
    KeyIdAgree c (InitLedger c f s id count).2 := by
  obtain ⟨v, hm, hu⟩ := hc.1 ⟨id ++ "-0", id, count, "0"⟩ hcount
  cases hp : f.putState (id ++ "-0") v with
  | some e =>
    have : (InitLedger c f s id count).2 = s := by simp [InitLedger, hm, PutState, hp]
    rw [this]
    exact h
  | none =>
    rw [InitLedger_eq c f s id count v hm hp]
    intro kv hkv a ha
    rcases mem_store _ _ _ _ hkv with hkv | rfl
    · exact h kv hkv a ha
    · simp only at ha
      rw [hu] at ha
      cases ha
      rfl

/-- `DeleteAsset` keeps the agreement of keys and IDs. -/
theorem DeleteAsset_KeyIdAgree (c : Codec) (f : Faults) (s : Stub) (id : String)
    (h : KeyIdAgree c s) : KeyIdAgree c (DeleteAsset f s id).2 := by
  simp only [DeleteAsset, AssetExists, DelState]
  cases hg : GetState f s id with
  | error e => exact h
  | ok o =>
    cases o with
    | none => exact h
    | some v =>
      simp only [Option.isSome_some]
      cases hd : f.delState id with
      | some e => exact h
      | none => exact fun kv hkv a ha => h kv (mem_remove _ _ _ hkv) a ha

/-- No successful `TransferAsset` leaves keys and IDs in agreement: the record it
stores under `newOwnerId` has the ID `N + "-" + newOwnerId`. -/
theorem TransferAsset_not_KeyIdAgree (c : Codec) (hc : c.Lawful) (f : Faults) (s : Stub)
    (id newOwnerId : String) (amount : Nat)
    (hok : (TransferAsset c f s id newOwnerId amount).1 = .ok ()) :
    ¬ KeyIdAgree c (TransferAsset c f s id newOwnerId amount).2 := by
  obtain ⟨v, a, j1, j2, hget, hdec, hle, hm1, hm2, hst⟩ :=
    TransferAsset_ok_inv c f s id newOwnerId amount hok
  have hr := hc.2 v a hdec
  obtain ⟨b2, hb2, hu2⟩ := hc.1 ⟨a.Name ++ "-" ++ newOwnerId, id, amount, newOwnerId⟩
    (show amount < uint64Size by omega)
  rw [hm2] at hb2
  cases hb2
  intro hagree
  rw [hst] at hagree
  have hmem : (newOwnerId, j2) ∈ store newOwnerId j2 (store id j1 s.world) :=
    mem_of_lookup _ _ _ (lookup_store_same _ _ _)
  have heq := hagree (newOwnerId, j2) hmem _ hu2
  have hlen := congrArg String.length heq
  simp only [String.length_append] at hlen
  have hdash : "-".length = 1 := rfl
  omega

/-- C14 at a failing input: on the ledger left by `InitLedger("widget", 100)` every
live record has as its ID the key it is stored under; `TransferAsset("widget-0",
"alice", 30)` succeeds; afterwards the key "alice" holds the record with ID
"widget-alice", so keys and IDs no longer agree. -/
theorem TransferAsset_breaks_KeyIdAgree :
    KeyIdAgree jsonCodec ledgerWidget ∧
    (TransferAsset jsonCodec noFaults ledgerWidget "widget-0" "alice" 30).1 = .ok () ∧
    (ReadAsset jsonCodec noFaults ledgerAlice "alice").1 =
      .ok ⟨"widget-alice", "widget-0", 30, "alice"⟩ ∧
    ¬ KeyIdAgree jsonCodec ledgerAlice := by
  refine ⟨?_, rfl, rfl, ?_⟩
  · intro kv hkv a ha
    rw [ledgerWidget_world] at hkv
    simp only [List.mem_singleton] at hkv
    subst hkv
    have hval : jsonCodec.Unmarshal
        "\x7b\"ID\":\"widget-0\",\"name\":\"widget\",\"count\":100,\"ownerId\":\"0\"\x7d" =
        .ok ⟨"widget-0", "widget", 100, "0"⟩ := rfl
    simp only at ha
    rw [hval] at ha
    cases ha
    rfl
  · intro hagree
    have hmem : (("alice",
        "\x7b\"ID\":\"widget-alice\",\"name\":\"widget-0\",\"count\":30,\"ownerId\":\"alice\"\x7d") :
        String × String) ∈ ledgerAlice.world := by
      rw [ledgerAlice_world]
      exact List.mem_cons_self _ _
    have := hagree _ hmem ⟨"widget-alice", "widget-0", 30, "alice"⟩ rfl
    exact absurd this (by decide)

/-! ### Error messages -/

theorem notExist_message_contains (id : String) :
    id.data <:+: (Error.notExist id).message.data :=
  ⟨"the asset ".data, " does not exist".data, by simp [Error.message]⟩

/-- C18, as amended: when nothing is stored under `id`, the error of `ReadAsset(id)`,
of `DeleteAsset(id)` and of `TransferAsset(id, ..)` has a message that contains the
string `id`; when the amount exceeds the count, the error of `TransferAsset` has the
fixed message "Stock does not have enough count!". -/
theorem error_messages (c : Codec) (f : Faults) (s : Stub) (id newOwnerId : String)
    (amount : Nat) :
    (GetState f s id = .ok none →
      (∃ e, (ReadAsset c f s id).1 = .error e ∧ id.data <:+: e.message.data) ∧
      (∃ e, (DeleteAsset f s id).1 = .error e ∧ id.data <:+: e.message.data) ∧
      (∃ e, (TransferAsset c f s id newOwnerId amount).1 = .error e ∧
        id.data <:+: e.message.data)) ∧
    (∀ v a, GetState f s id = .ok (some v) → c.Unmarshal v = .ok a → a.Count < amount →
      ∃ e, (TransferAsset c f s id newOwnerId amount).1 = .error e ∧
        e.message = "Stock does not have enough count!") := by
  constructor
  · intro h
    refine ⟨⟨.notExist id, ?_, notExist_message_contains id⟩,
      ⟨.notExist id, ?_, notExist_message_contains id⟩,
      ⟨.notExist id, ?_, notExist_message_contains id⟩⟩
    · simp [ReadAsset, h]
    · simp [DeleteAsset, AssetExists, h]
    · simp [TransferAsset, ReadAsset, h]
  · intro v a hget hdec hlt
    exact ⟨.notEnough, by simp [TransferAsset, ReadAsset, hget, hdec, hlt], rfl⟩

theorem error_messages_witness :
    ((∃ e, (ReadAsset jsonCodec noFaults ledgerWidget "widget-1").1 = .error e ∧
        "widget-1".data <:+: e.message.data) ∧
      (∃ e, (DeleteAsset noFaults ledgerWidget "widget-1").1 = .error e ∧
        "widget-1".data <:+: e.message.data) ∧
      (∃ e, (TransferAsset jsonCodec noFaults ledgerWidget "widget-1" "alice" 101).1 = .error e ∧
        "widget-1".data <:+: e.message.data)) ∧
    (∃ e, (TransferAsset jsonCodec noFaults ledgerWidget "widget-0" "alice" 101).1 = .error e ∧
      e.message = "Stock does not have enough count!") :=
  ⟨(error_messages jsonCodec noFaults ledgerWidget "widget-1" "alice" 101).1 rfl,
    (error_messages jsonCodec noFaults ledgerWidget "widget-0" "alice" 101).2
      "\x7b\"ID\":\"widget-0\",\"name\":\"widget\",\"count\":100,\"ownerId\":\"0\"\x7d"
      ⟨"widget-0", "widget", 100, "0"⟩ rfl rfl (by decide)⟩

/-- C18 fails as stated: on the ledger left by `InitLedger("widget", 100)`,
`TransferAsset("widget-0", "alice", 101)` fails with the message "Stock does not have
enough count!", which contains neither "widget-0" nor "TransferAsset"; and when the
stub answers a nil cursor, `ReadHistory("widget-0")` fails with the message "the
history %!s(MISSING) does not exist", which does not contain "widget-0". -/
theorem error_messages_counterexample :
    (TransferAsset jsonCodec noFaults ledgerWidget "widget-0" "alice" 101).1 =
      .error .notEnough ∧
    Error.notEnough.message = "Stock does not have enough count!" ∧
    ¬ ("widget-0".data <:+: Error.notEnough.message.data) ∧
    ¬ ("TransferAsset".data <:+: Error.notEnough.message.data) ∧
    (ReadHistory jsonCodec (GetHistoryForKey nilHistory ledgerWidget) ledgerWidget
      "widget-0").1 = .error .noHistory ∧
    Error.noHistory.message = "the history %!s(MISSING) does not exist" ∧
    ¬ ("widget-0".data <:+: Error.noHistory.message.data) :=
  ⟨rfl, rfl, by decide, by decide, rfl, rfl, by decide⟩

/-! ### Go strings as byte strings -/

theorem char_range (ch : Char) :
    ch.toNat < 0xD800 ∨ (0xDFFF < ch.toNat ∧ ch.toNat < 0x110000) := ch.valid

theorem utf8Char_lt (ch : Char) : ∀ b ∈ utf8Char ch.toNat, b < 256 := by
  have h := char_range ch
  intro b hb
  unfold utf8Char at hb
  split_ifs at hb <;> simp at hb <;> omega

theorem utf8Char_length_pos (n : Nat) : 0 < (utf8Char n).length := by
  unfold utf8Char
  split_ifs <;> simp

theorem decodeRune_two (b0 b1 : Nat) (rest : List Nat) (h0 : 0xC2 ≤ b0 ∧ b0 ≤ 0xDF)
    (h1 : 0x80 ≤ b1 ∧ b1 ≤ 0xBF) :
    decodeRune (b0 :: b1 :: rest) = ((b0 - 0xC0) * 0x40 + (b1 - 0x80), 2) := by
  unfold decodeRune
  dsimp only
  rw [if_neg (by omega), if_pos h0]
  have hc : isCont b1 = true := by simp [isCont, h1.1, h1.2]
  simp only [hc, if_true]

theorem decodeRune_three (b0 b1 b2 : Nat) (rest : List Nat) (h0 : 0xE0 ≤ b0 ∧ b0 ≤ 0xEF)
    (h1 : (if b0 = 0xE0 then 0xA0 else 0x80) ≤ b1 ∧ b1 ≤ (if b0 = 0xED then 0x9F else 0xBF))
    (h2 : 0x80 ≤ b2 ∧ b2 ≤ 0xBF) :
    decodeRune (b0 :: b1 :: b2 :: rest) =
      ((b0 - 0xE0) * 0x1000 + (b1 - 0x80) * 0x40 + (b2 - 0x80), 3) := by
  unfold decodeRune
  dsimp only
  rw [if_neg (by omega), if_neg (by omega), if_pos h0]
  have hc : isCont b2 = true := by simp [isCont, h2.1, h2.2]
  simp only [hc, and_true]
  rw [if_pos h1]

theorem decodeRune_four (b0 b1 b2 b3 : Nat) (rest : List Nat) (h0 : 0xF0 ≤ b0 ∧ b0 ≤ 0xF4)
    (h1 : (if b0 = 0xF0 then 0x90 else 0x80) ≤ b1 ∧ b1 ≤ (if b0 = 0xF4 then 0x8F else 0xBF))
    (h2 : 0x80 ≤ b2 ∧ b2 ≤ 0xBF) (h3 : 0x80 ≤ b3 ∧ b3 ≤ 0xBF) :
    decodeRune (b0 :: b1 :: b2 :: b3 :: rest) =
      ((b0 - 0xF0) * 0x40000 + (b1 - 0x80) * 0x1000 + (b2 - 0x80) * 0x40 + (b3 - 0x80), 4) := by
  unfold decodeRune
  dsimp only
  rw [if_neg (by omega), if_neg (by omega), if_neg (by omega), if_pos h0]
  have hc2 : isCont b2 = true := by simp [isCont, h2.1, h2.2]
  have hc3 : isCont b3 = true := by simp [isCont, h3.1, h3.2]
  simp only [hc2, hc3, and_true]
  rw [if_pos h1]

theorem decodeRune_utf8Char (ch : Char) (rest : List Nat) :
    decodeRune (utf8Char ch.toNat ++ rest) = (ch.toNat, (utf8Char ch.toNat).length) := by
  have h := char_range ch
  unfold utf8Char
  split_ifs with h1 h2 h3
  · simp [decodeRune, h1]
  · rw [List.cons_append, List.cons_append, List.nil_append,
      decodeRune_two _ _ _ (by omega) (by omega)]
    simp only [List.length_cons, List.length_nil, Prod.mk.injEq, and_true]
    omega
  · rw [List.cons_append, List.cons_append, List.cons_append, List.nil_append,
      decodeRune_three _ _ _ _ (by omega) (by split_ifs <;> omega) (by omega)]
    simp only [List.length_cons, List.length_nil, Prod.mk.injEq, and_true]
    omega
  · rw [List.cons_append, List.cons_append, List.cons_append, List.cons_append, List.nil_append,
      decodeRune_four _ _ _ _ _ (by omega) (by split_ifs <;> omega) (by omega) (by omega)]
    simp only [List.length_cons, List.length_nil, Prod.mk.injEq, and_true]
    omega

theorem runes_flatMap (chars : List Char) :
    ∀ fuel, (chars.flatMap (fun ch => utf8Char ch.toNat)).length ≤ fuel →
      runes fuel (chars.flatMap (fun ch => utf8Char ch.toNat)) = chars := by
  induction chars with
  | nil =>
    intro fuel _
    cases fuel <;> rfl
  | cons ch chars ih =>
    intro fuel hfuel
    rw [List.flatMap_cons] at hfuel ⊢
    have hpos := utf8Char_length_pos ch.toNat
    obtain ⟨b, tl, hb⟩ : ∃ b tl, utf8Char ch.toNat = b :: tl := by
      cases h : utf8Char ch.toNat with
      | nil => simp [h] at hpos
      | cons b tl => exact ⟨b, tl, rfl⟩
    rw [List.length_append] at hfuel
    cases fuel with
    | zero => omega
    | succ fuel =>
      have hdec := decodeRune_utf8Char ch (chars.flatMap (fun ch => utf8Char ch.toNat))
      rw [hb] at hdec hfuel ⊢
      rw [List.cons_append] at hdec ⊢
      unfold runes
      rw [hdec]
      simp only [Char.ofNat_toNat]
      have hle : (chars.flatMap (fun ch => utf8Char ch.toNat)).length ≤ fuel := by
        rw [List.length_cons] at hfuel
        omega
      rw [← List.cons_append, List.drop_left, ih fuel hle]

theorem map_toNat_ofNat (l : List Nat) (h : ∀ b ∈ l, b < 256) :
    (l.map UInt8.ofNat).map UInt8.toNat = l := by
  induction l with
  | nil => rfl
  | cons b l ih =>
    simp only [List.map_cons]
    rw [ih (fun x hx => h x (List.mem_cons_of_mem _ hx)),
      UInt8.toNat_ofNat_of_lt (h b (List.mem_cons_self _ _))]

/-- A text is what the coercion of its bytes gives. -/
theorem toValidUTF8_bytesOf (text : String) : toValidUTF8 (bytesOf text) = text := by
  unfold toValidUTF8 bytesOf
  have hlt : ∀ b ∈ text.data.flatMap (fun ch => utf8Char ch.toNat), b < 256 := by
    intro b hb
    obtain ⟨ch, -, hch⟩ := List.mem_flatMap.1 hb
    exact utf8Char_lt ch b hch
  rw [map_toNat_ofNat _ hlt, List.length_map, runes_flatMap _ _ (le_refl _)]

theorem bytesOf_append (s t : String) : bytesOf (s ++ t) = bytesOf s ++ bytesOf t := by
  simp [bytesOf, String.data_append, List.flatMap_append]

theorem lookup_store_raw (key : GoString) (value : String) (l : List (GoString × String)) :
    Raw.lookup key (Raw.store key value l) = some value := by
  induction l with
  | nil => simp [Raw.store, Raw.lookup]
  | cons kv rest ih =>
    obtain ⟨k, v⟩ := kv
    unfold Raw.store
    split
    · simp [Raw.lookup]
    · split
      · simp [Raw.lookup]
      · rename_i hne
        simp [Raw.lookup, hne, ih]

/-- What `ReadAsset(id + "-0")` returns after `InitLedger(id, count)` for any bytes
`id`: the asset written, every string coerced to valid UTF-8. -/
theorem InitLedger_ReadAsset_coerced (c : Codec) (hc : c.Lawful) (f : Raw.Faults) (s : Raw.Stub)
    (id : GoString) (count : Nat) (hcount : count < uint64Size)
    (hput : ∀ value, f.putState (id ++ bytesOf "-0") value = none)
    (hget : f.getState (id ++ bytesOf "-0") = none) :
    (Raw.InitLedger c f s id count).1 = .ok () ∧
    (∃ v, Raw.GetState f (Raw.InitLedger c f s id count).2 (id ++ bytesOf "-0") =
        .ok (some v) ∧
      Raw.Marshal c ⟨id ++ bytesOf "-0", id, count, bytesOf "0"⟩ = .ok v ∧
      Raw.Unmarshal c v = .ok (Raw.Asset.ofText
        (Raw.Asset.text ⟨id ++ bytesOf "-0", id, count, bytesOf "0"⟩))) ∧
    (Raw.ReadAsset c f (Raw.InitLedger c f s id count).2 (id ++ bytesOf "-0")).1 =
      .ok (Raw.Asset.ofText (Raw.Asset.text ⟨id ++ bytesOf "-0", id, count, bytesOf "0"⟩)) := by
  obtain ⟨v, hm, hu⟩ := hc.1 (Raw.Asset.text ⟨id ++ bytesOf "-0", id, count, bytesOf "0"⟩) hcount
  have hm2 : Raw.Marshal c ⟨id ++ bytesOf "-0", id, count, bytesOf "0"⟩ = .ok v := hm
  have hu2 : Raw.Unmarshal c v = .ok (Raw.Asset.ofText
      (Raw.Asset.text ⟨id ++ bytesOf "-0", id, count, bytesOf "0"⟩)) := by
    simp [Raw.Unmarshal, hu]
  have hst : Raw.InitLedger c f s id count =
      (.ok (), ⟨Raw.store (id ++ bytesOf "-0") v s.world,
        s.log ++ [(id ++ bytesOf "-0", some v)]⟩) := by
    simp [Raw.InitLedger, hm2, Raw.PutState, hput v]
  have hg : Raw.GetState f ⟨Raw.store (id ++ bytesOf "-0") v s.world,
      s.log ++ [(id ++ bytesOf "-0", some v)]⟩ (id ++ bytesOf "-0") = .ok (some v) := by
    simp [Raw.GetState, hget, lookup_store_raw]
  rw [hst]
  refine ⟨rfl, ⟨v, hg, hm2, hu2⟩, ?_⟩
  simp [Raw.ReadAsset, hg, hu2]

/-- C5, as amended: for every id that is valid UTF-8 (the coercion to valid UTF-8
leaves it as it is) and every `uint64` count, on a stub that accepts the put and
answers the get, `InitLedger(id, count)` succeeds, the value stored under
`id + "-0"` is the marshalled asset and unmarshals to it, and `ReadAsset(id + "-0")`
returns exactly the asset with ID `id + "-0"`, name `id`, the count and owner `"0"`. -/
theorem InitLedger_ReadAsset_validUTF8 (c : Codec) (hc : c.Lawful) (f : Raw.Faults)
    (s : Raw.Stub) (id : GoString) (count : Nat)
    (hid : bytesOf (toValidUTF8 id) = id) (hcount : count < uint64Size)
    (hput : ∀ value, f.putState (id ++ bytesOf "-0") value = none)
    (hget : f.getState (id ++ bytesOf "-0") = none) :
    (Raw.InitLedger c f s id count).1 = .ok () ∧
    (∃ v, Raw.GetState f (Raw.InitLedger c f s id count).2 (id ++ bytesOf "-0") =
        .ok (some v) ∧
      Raw.Marshal c ⟨id ++ bytesOf "-0", id, count, bytesOf "0"⟩ = .ok v ∧
      Raw.Unmarshal c v = .ok ⟨id ++ bytesOf "-0", id, count, bytesOf "0"⟩) ∧
    (Raw.ReadAsset c f (Raw.InitLedger c f s id count).2 (id ++ bytesOf "-0")).1 =
      .ok ⟨id ++ bytesOf "-0", id, count, bytesOf "0"⟩ := by
  have hkey : bytesOf (toValidUTF8 (id ++ bytesOf "-0")) = id ++ bytesOf "-0" := by
    have h1 : id ++ bytesOf "-0" = bytesOf (toValidUTF8 id ++ "-0") := by
      rw [bytesOf_append, hid]
    rw [h1, toValidUTF8_bytesOf]
  have hfix : Raw.Asset.ofText (Raw.Asset.text ⟨id ++ bytesOf "-0", id, count, bytesOf "0"⟩) =
      ⟨id ++ bytesOf "-0", id, count, bytesOf "0"⟩ := by
    simp only [Raw.Asset.ofText, Raw.Asset.text, hkey, hid, toValidUTF8_bytesOf]
  have h := InitLedger_ReadAsset_coerced c hc f s id count hcount hput hget
  rw [hfix] at h
  exact h

theorem InitLedger_ReadAsset_validUTF8_witness :
    bytesOf (toValidUTF8 (bytesOf "widget")) = bytesOf "widget" ∧
    (Raw.InitLedger jsonCodec Raw.noFaults Raw.Stub.empty (bytesOf "widget") 100).1 = .ok () ∧
    (∃ v, Raw.GetState Raw.noFaults
        (Raw.InitLedger jsonCodec Raw.noFaults Raw.Stub.empty (bytesOf "widget") 100).2
        (bytesOf "widget" ++ bytesOf "-0") = .ok (some v) ∧
      Raw.Marshal jsonCodec ⟨bytesOf "widget" ++ bytesOf "-0", bytesOf "widget", 100,
        bytesOf "0"⟩ = .ok v ∧
      Raw.Unmarshal jsonCodec v =
        .ok ⟨bytesOf "widget" ++ bytesOf "-0", bytesOf "widget", 100, bytesOf "0"⟩) ∧
    (Raw.ReadAsset jsonCodec Raw.noFaults
        (Raw.InitLedger jsonCodec Raw.noFaults Raw.Stub.empty (bytesOf "widget") 100).2
        (bytesOf "widget" ++ bytesOf "-0")).1 =
      .ok ⟨bytesOf "widget" ++ bytesOf "-0", bytesOf "widget", 100, bytesOf "0"⟩ :=
  ⟨by decide,
    InitLedger_ReadAsset_validUTF8 jsonCodec jsonCodec_lawful Raw.noFaults Raw.Stub.empty
      (bytesOf "widget") 100 (by decide) (by decide) (fun _ => rfl) rfl⟩

/-- C5 fails as stated: for the id consisting of the single byte 0xff, which is not
valid UTF-8, and the count 5, `InitLedger` succeeds on the empty ledger and
`ReadAsset(id + "-0")` succeeds, but the asset it returns has the ID "\ufffd-0" (bytes
ef bf bd 2d 30) and the name "\ufffd" (bytes ef bf bd), not the ID `id + "-0"` (bytes
ff 2d 30) and the name `id`. -/
theorem InitLedger_ReadAsset_counterexample :
    (Raw.InitLedger jsonCodec Raw.noFaults Raw.Stub.empty [0xff] 5).1 = .ok () ∧
    (Raw.ReadAsset jsonCodec Raw.noFaults
      (Raw.InitLedger jsonCodec Raw.noFaults Raw.Stub.empty [0xff] 5).2
      ([0xff] ++ bytesOf "-0")).1 =
      .ok ⟨[0xEF, 0xBF, 0xBD, 0x2D, 0x30], [0xEF, 0xBF, 0xBD], 5, [0x30]⟩ ∧
    (⟨[0xEF, 0xBF, 0xBD, 0x2D, 0x30], [0xEF, 0xBF, 0xBD], 5, [0x30]⟩ : Raw.Asset) ≠
      ⟨[0xff] ++ bytesOf "-0", [0xff], 5, bytesOf "0"⟩ ∧
    bytesOf (toValidUTF8 [0xff]) ≠ [0xff] :=
  ⟨rfl, rfl, by decide, by decide⟩

end Chaincode
